import Mathlib

/-!
# find_cycle_start: cycle detection on an index-linked path

A shallow embedding of `main.cpp`: the `Path` arena (a vector of nodes, each holding
the index of its successor, plus a start field) and the analysis functions
`nextNodeIndex`, `nNodesInCycle`, `startOfCycleContaining`, `findCycle`, `createPath`,
`hasCycle` and `nNodesBefore`.

Modelling conventions.
* `size_t` values, hence node indices (`Path::NodeIndex`), are natural numbers; the only
  arithmetic the program performs on them is the increment of a counter, which is written
  with an explicit `% 2 ^ 64`.
* A failed `assert` is the result `Outcome.assertFail`.
* The unbounded loops (`for (;;)` and `while`) take a fuel argument that bounds the
  number of times the loop head is entered; `Outcome.outOfFuel` means that the bound
  was reached.  Termination statements are of the form "every fuel above an explicit
  bound gives `Outcome.ok`".
-/

namespace FindCycleStart

/-! ## The embedding -/

/-- The result of running a piece of the program: a value, a failed `assert`, or the
loop bound of the model was reached. -/
inductive Outcome (α : Type) where
  | ok (a : α)
  | assertFail
  | outOfFuel
  deriving DecidableEq

/-- Sequencing of two program fragments: the second runs only if the first returned. -/
def Outcome.bind {α β : Type} : Outcome α → (α → Outcome β) → Outcome β
  | .ok a, f => f a
  | .assertFail, _ => .assertFail
  | .outOfFuel, _ => .outOfFuel

/-- The sentinel `Path::end()`, which is `std::numeric_limits<size_t>::max()`. -/
def Path.end : Nat := 2 ^ 64 - 1

/-- The record `Path::Node`; its member initialiser is `next = end()`. -/
structure Node where
  next : Nat := Path.end
  deriving DecidableEq

/-- The class `Path`: the private members `_start` (initialised to `end()`) and
`_nodes` (initially empty). -/
structure Path where
  _start : Nat := Path.end
  _nodes : List Node := []
  deriving DecidableEq

/-- The method `Path::checkNodeIndex`: `assert(i < _nodes.size())`. -/
def Path.checkNodeIndex (p : Path) (i : Nat) : Outcome Unit :=
  if i < p._nodes.length then .ok () else .assertFail

/-- The method `Path::checkMaybeNodeIndex`: the sentinel passes, anything else is checked. -/
def Path.checkMaybeNodeIndex (p : Path) (node_index : Nat) : Outcome Unit :=
  if node_index = Path.end then .ok () else p.checkNodeIndex node_index

/-- The method `Path::node`: the checked access `_nodes[i]`. -/
def Path.node (p : Path) (i : Nat) : Outcome Node :=
  (p.checkNodeIndex i).bind fun _ => .ok (p._nodes.getD i {})

/-- The method `Path::addNode`: returns the old size and appends a fresh node. -/
def Path.addNode (p : Path) : Nat × Path :=
  (p._nodes.length, { p with _nodes := p._nodes ++ [{}] })

/-- The method `Path::setNext`. -/
def Path.setNext (p : Path) (node_index next_node_index : Nat) : Outcome Path :=
  if node_index = Path.end then
    (p.checkNodeIndex next_node_index).bind fun _ =>
      .ok { p with _start := next_node_index }
  else
    (p.checkMaybeNodeIndex next_node_index).bind fun _ =>
      (p.checkNodeIndex node_index).bind fun _ =>
        .ok { p with _nodes := p._nodes.set node_index { next := next_node_index } }

/-- The method `Path::next`. -/
def Path.next (p : Path) (i : Nat) : Outcome Nat :=
  (p.node i).bind fun nd => .ok nd.next

/-- The method `Path::start`. -/
def Path.start (p : Path) : Nat := p._start

/-- The function `nextNodeIndex`: `while (count > 0) { n = p.next(n); --count; }`. -/
def nextNodeIndex (p : Path) : Nat → Nat → Outcome Nat
  | n, 0 => .ok n
  | n, count + 1 => (p.next n).bind fun n1 => nextNodeIndex p n1 count

/-- The function `isEmpty`. -/
def isEmpty (p : Path) : Bool := decide (p.start = Path.end)

/-- The `for (;;)` loop of `nNodesInCycle`, entered with the current values of `i` and
of the counter. -/
def nNodesInCycle.loop (p : Path) (cycle_start : Nat) :
    Nat → Nat → Nat → Outcome Nat
  | 0, _, _ => .outOfFuel
  | fuel + 1, i, n_nodes_in_cycle =>
    if i = Path.end then .assertFail
    else (p.next i).bind fun i1 =>
      if i1 = cycle_start then .ok ((n_nodes_in_cycle + 1) % 2 ^ 64)
      else nNodesInCycle.loop p cycle_start fuel i1 ((n_nodes_in_cycle + 1) % 2 ^ 64)

/-- The function `nNodesInCycle`. -/
def nNodesInCycle (fuel : Nat) (p : Path) (cycle_start : Nat) : Outcome Nat :=
  if cycle_start = Path.end then .ok 0
  else nNodesInCycle.loop p cycle_start fuel cycle_start 0

/-- The `while (i1 != i2)` loop of `startOfCycleContaining`. -/
def startOfCycleContaining.loop (path : Path) : Nat → Nat → Nat → Outcome Nat
  | 0, _, _ => .outOfFuel
  | fuel + 1, i1, i2 =>
    if i1 = i2 then .ok i1
    else (path.next i1).bind fun j1 => (path.next i2).bind fun j2 =>
      startOfCycleContaining.loop path fuel j1 j2

/-- The function `startOfCycleContaining`. -/
def startOfCycleContaining (fuel : Nat) (path : Path) (i : Nat) : Outcome Nat :=
  (nNodesInCycle fuel path i).bind fun cycle_size =>
    (nextNodeIndex path path.start cycle_size).bind fun i2 =>
      startOfCycleContaining.loop path fuel path.start i2

/-- The `for (;;)` loop of `findCycle`, entered with the current values of `i1` (the slow
pointer) and `i2` (the fast pointer). -/
def findCycle.loop (path : Path) (fuel2 : Nat) : Nat → Nat → Nat → Outcome Nat
  | 0, _, _ => .outOfFuel
  | fuel + 1, i1, i2 =>
    (path.next i2).bind fun i2a =>
      if i2a = Path.end then .ok i2a
      else if i2a = i1 then startOfCycleContaining fuel2 path i1
      else (path.next i2a).bind fun i2b =>
        if i2b = Path.end then .ok i2b
        else if i2b = i1 then startOfCycleContaining fuel2 path i1
        else (path.next i1).bind fun i1a =>
          if i1a = i2b then .ok i1a
          else findCycle.loop path fuel2 fuel i1a i2b

/-- The function `findCycle`.  The same fuel bounds each of the loops it runs. -/
def findCycle (fuel : Nat) (path : Path) : Outcome Nat :=
  if path.start = Path.end then .ok path.start
  else findCycle.loop path fuel fuel path.start path.start

/-- The first loop of `createPath`, with `k` iterations left; the state is the path and
`prev_node_index`. -/
def createPath.loop1 : Nat → Path → Nat → Outcome (Path × Nat)
  | 0, p, prev_node_index => .ok (p, prev_node_index)
  | k + 1, p, prev_node_index =>
    (p.addNode.2.setNext prev_node_index p.addNode.1).bind fun p1 =>
      createPath.loop1 k p1 p.addNode.1

/-- The second loop of `createPath`, with `k` iterations left; the state is the path,
`prev_node_index` and `cycle_start`. -/
def createPath.loop2 : Nat → Path → Nat → Nat →
    Outcome (Path × Nat × Nat)
  | 0, p, prev_node_index, cycle_start => .ok (p, prev_node_index, cycle_start)
  | k + 1, p, prev_node_index, cycle_start =>
    (p.addNode.2.setNext prev_node_index p.addNode.1).bind fun p1 =>
      createPath.loop2 k p1 p.addNode.1
        (if cycle_start = Path.end then p.addNode.1 else cycle_start)

/-- The function `createPath`. -/
def createPath (n_nodes_before_cycle n_nodes_in_cycle : Nat) : Outcome Path :=
  (createPath.loop1 n_nodes_before_cycle {} Path.end).bind fun s1 =>
    (createPath.loop2 n_nodes_in_cycle s1.1 s1.2 Path.end).bind fun s2 =>
      if s2.2.1 ≠ Path.end then s2.1.setNext s2.2.1 s2.2.2 else .ok s2.1

/-- The function `hasCycle`. -/
def hasCycle (fuel : Nat) (p : Path) : Outcome Bool :=
  (findCycle fuel p).bind fun r => .ok (decide (r ≠ Path.end))

/-- The `while (i != node_index)` loop of `nNodesBefore`. -/
def nNodesBefore.loop (p : Path) (node_index : Nat) : Nat → Nat → Nat → Outcome Nat
  | 0, _, _ => .outOfFuel
  | fuel + 1, i, n =>
    if i = node_index then .ok n
    else (p.next i).bind fun i1 => nNodesBefore.loop p node_index fuel i1 ((n + 1) % 2 ^ 64)

/-- The function `nNodesBefore`. -/
def nNodesBefore (fuel : Nat) (p : Path) (node_index : Nat) : Outcome Nat :=
  nNodesBefore.loop p node_index fuel p.start 0

/-! ## Notions used to state the properties -/

/-- The number of nodes in the arena (`_nodes.size()`). -/
def Path.size (p : Path) : Nat := p._nodes.length

/-- A valid node index of the arena. -/
def Path.Valid (p : Path) (i : Nat) : Prop := i < p.size

/-- Well-formed paths: the arena has fewer nodes than the sentinel value (a `size_t`
cannot count more), the start field is the sentinel or a valid index, and so is the link
of every node. -/
def WellFormed (p : Path) : Prop :=
  p.size < Path.end ∧
  (p._start = Path.end ∨ p._start < p.size) ∧
  ∀ nd ∈ p._nodes, nd.next = Path.end ∨ nd.next < p.size

/-- The link stored for `i`, read without a check: the sentinel where `Path::next`
would fail. -/
def Path.succ (p : Path) (i : Nat) : Nat :=
  match p._nodes[i]? with
  | some nd => nd.next
  | none => Path.end

/-- The node reached from `a` after `k` links. -/
def Path.iter (p : Path) (a : Nat) (k : Nat) : Nat := (p.succ)^[k] a

/-- The walk of the path: `pos p k` is the node reached from the start after `k` links
(the sentinel from the point where the walk has ended). -/
def Path.pos (p : Path) (k : Nat) : Nat := p.iter p._start k

instance (p : Path) (i : Nat) : Decidable (p.Valid i) := by
  unfold Path.Valid; infer_instance

instance (p : Path) : Decidable (WellFormed p) := by
  unfold WellFormed; infer_instance

/-- The three ways in which the loop of `findCycle` is left: the fast pointer `i2` reached
the sentinel (`return i2`), the fast pointer met the slow pointer `i1`
(`return startOfCycleContaining(path,i1)`), or the slow pointer met the fast pointer
(`return i1`). -/
inductive LoopExit where
  | ranOff
  | fastMetSlow (i1 : Nat)
  | slowMetFast (i1 : Nat)
  deriving DecidableEq

/-- What `findCycle` returns after its loop was left in the given way. -/
def LoopExit.finish (fuel2 : Nat) (path : Path) : LoopExit → Outcome Nat
  | .ranOff => .ok Path.end
  | .fastMetSlow i1 => startOfCycleContaining fuel2 path i1
  | .slowMetFast i1 => .ok i1

/-- The loop of `findCycle` again, reporting the way it is left and the number of
iterations it started instead of the value `findCycle` returns. -/
def findCycle.trace (path : Path) : Nat → Nat → Nat → Outcome (LoopExit × Nat)
  | 0, _, _ => .outOfFuel
  | fuel + 1, i1, i2 =>
    (path.next i2).bind fun i2a =>
      if i2a = Path.end then .ok (.ranOff, 1)
      else if i2a = i1 then .ok (.fastMetSlow i1, 1)
      else (path.next i2a).bind fun i2b =>
        if i2b = Path.end then .ok (.ranOff, 1)
        else if i2b = i1 then .ok (.fastMetSlow i1, 1)
        else (path.next i1).bind fun i1a =>
          if i1a = i2b then .ok (.slowMetFast i1a, 1)
          else (findCycle.trace path fuel i1a i2b).bind fun r => .ok (r.1, r.2 + 1)

/-- None of the five tests of iteration `s` of the loop of `findCycle` succeeds, the slow
pointer being at position `s` and the fast pointer at position `2 * s` of the walk. -/
def Path.NoExit (p : Path) (s : Nat) : Prop :=
  p.pos (2 * s + 1) ≠ Path.end ∧ p.pos (2 * s + 1) ≠ p.pos s ∧
  p.pos (2 * s + 2) ≠ Path.end ∧ p.pos (2 * s + 2) ≠ p.pos s ∧
  p.pos (s + 1) ≠ p.pos (2 * s + 2)

instance (p : Path) (s : Nat) : Decidable (p.NoExit s) := by
  unfold Path.NoExit; infer_instance

/-- The way iteration `s` of the loop of `findCycle` is left when it is the first with a
successful test. -/
def Path.exitAt (p : Path) (s : Nat) : LoopExit :=
  if p.pos (2 * s + 1) = Path.end then .ranOff
  else if p.pos (2 * s + 1) = p.pos s then .fastMetSlow (p.pos s)
  else if p.pos (2 * s + 2) = Path.end then .ranOff
  else if p.pos (2 * s + 2) = p.pos s then .fastMetSlow (p.pos s)
  else .slowMetFast (p.pos (s + 1))

/-- The walk from `a` is a lasso: `m` nodes, then a cycle of `l` nodes.  The first `m + l`
positions are pairwise different nodes, and position `m + l` is position `m` again. -/
structure Lasso (p : Path) (a : Nat) (m l : Nat) : Prop where
  one_le : 1 ≤ l
  ne_end : p.iter a m ≠ Path.end
  inj : ∀ i j, i < j → j < m + l → p.iter a i ≠ p.iter a j
  per : p.iter a (m + l) = p.iter a m

/-- The state of `createPath` after `n` nodes were added: the arena holds `n` nodes, each
linked to the next one and the last one to nothing, the path starts at the first node, and
`prev` is the last node (the sentinel while there is none). -/
structure Chained (p : Path) (prev n : Nat) : Prop where
  size_eq : p.size = n
  start_eq : p._start = if n = 0 then Path.end else 0
  prev_eq : prev = if n = 0 then Path.end else n - 1
  link : ∀ i, i + 1 < n → p.succ i = i + 1
  last : p.succ (n - 1) = Path.end

/-- The path with `b` nodes before a cycle of `c` nodes: the arena holds `b + c` nodes,
each linked to the next one, and the last one linked to node `b` (to nothing if there
is no cycle); the path starts at node `0`, if there is one. -/
structure Shape (p : Path) (b c : Nat) : Prop where
  size_eq : p.size = b + c
  start_eq : p._start = if b + c = 0 then Path.end else 0
  link : ∀ i, i + 1 < b + c → p.succ i = i + 1
  last : 0 < b + c → p.succ (b + c - 1) = if c = 0 then Path.end else b

/-- A path on which the statements are tried: node `0`, then the cycle of the nodes `1`
and `2`; node `3` is not on the path. -/
def examplePath : Path := { _start := 0, _nodes := [⟨1⟩, ⟨2⟩, ⟨1⟩, ⟨Path.end⟩] }

/-- The store as `Path::setNext` leaves it when it returns or halts, together with the
result of the call: the statements of the method run one after the other on the store,
and only the two assignments change it. -/
def Path.setNextStore (p : Path) (node_index next_node_index : Nat) : Path × Outcome Unit :=
  if node_index = Path.end then
    match p.checkNodeIndex next_node_index with
    | .ok _ => ({ p with _start := next_node_index }, .ok ())
    | .assertFail => (p, .assertFail)
    | .outOfFuel => (p, .outOfFuel)
  else
    match p.checkMaybeNodeIndex next_node_index with
    | .ok _ =>
      match p.checkNodeIndex node_index with
      | .ok _ => ({ p with _nodes := p._nodes.set node_index { next := next_node_index } }, .ok ())
      | .assertFail => (p, .assertFail)
      | .outOfFuel => (p, .outOfFuel)
    | .assertFail => (p, .assertFail)
    | .outOfFuel => (p, .outOfFuel)

/-- The links of a path are in range: the start field is the sentinel or a valid index,
and so is the link of every node. -/
def Path.LinksValid (p : Path) : Prop :=
  (p._start = Path.end ∨ p._start < p.size) ∧
  ∀ nd ∈ p._nodes, nd.next = Path.end ∨ nd.next < p.size

instance (p : Path) : Decidable p.LinksValid := by
  unfold Path.LinksValid; infer_instance

/-- A call of one of the two mutating methods of `Path`. -/
inductive Call where
  | addNode
  | setNext (node_index next_node_index : Nat)
  deriving DecidableEq

/-- The store after a call, if the call returns. -/
def Path.call (p : Path) : Call → Outcome Path
  | .addNode => .ok p.addNode.2
  | .setNext node_index next_node_index => p.setNext node_index next_node_index

/-- The store after a sequence of calls, if all of them return. -/
def Path.calls (p : Path) : List Call → Outcome Path
  | [] => .ok p
  | c :: cs => (p.call c).bind fun q => q.calls cs

/-- The `while (i1 != i2)` loop of `startOfCycleContaining` again, reporting the number of
times its body ran next to the node it ends on. -/
def startOfCycleContaining.trace (path : Path) : Nat → Nat → Nat → Outcome (Nat × Nat)
  | 0, _, _ => .outOfFuel
  | fuel + 1, i1, i2 =>
    if i1 = i2 then .ok (i1, 0)
    else (path.next i1).bind fun j1 => (path.next i2).bind fun j2 =>
      (startOfCycleContaining.trace path fuel j1 j2).bind fun r => .ok (r.1, r.2 + 1)

/-! ## Basic facts about the embedding -/

@[simp] theorem Outcome.bind_ok {α β : Type} (a : α) (f : α → Outcome β) :
    (Outcome.ok a).bind f = f a := rfl

@[simp] theorem Outcome.bind_assertFail {α β : Type} (f : α → Outcome β) :
    (Outcome.assertFail : Outcome α).bind f = .assertFail := rfl

@[simp] theorem Outcome.bind_outOfFuel {α β : Type} (f : α → Outcome β) :
    (Outcome.outOfFuel : Outcome α).bind f = .outOfFuel := rfl

theorem Outcome.bind_assoc {α β γ : Type} (x : Outcome α) (f : α → Outcome β)
    (g : β → Outcome γ) : (x.bind f).bind g = x.bind fun a => (f a).bind g := by
  cases x <;> rfl

theorem Path.end_eq : Path.end = 18446744073709551615 := by decide

theorem Path.next_of_lt {p : Path} {i : Nat} (h : i < p.size) :
    p.next i = .ok (p.succ i) := by
  have h1 : i < p._nodes.length := h
  simp [Path.next, Path.node, Path.checkNodeIndex, Path.succ, h1, List.getD_eq_getElem?_getD,
    List.getElem?_eq_getElem h1]

theorem Path.next_of_ge {p : Path} {i : Nat} (h : p.size ≤ i) :
    p.next i = .assertFail := by
  have h1 : ¬ i < p._nodes.length := Nat.not_lt.mpr h
  simp [Path.next, Path.node, Path.checkNodeIndex, h1]

theorem Path.succ_of_ge {p : Path} {i : Nat} (h : p.size ≤ i) : p.succ i = Path.end := by
  have h1 : p._nodes.length ≤ i := h
  simp [Path.succ, List.getElem?_eq_none h1]

theorem Path.succ_end {p : Path} (hw : WellFormed p) : p.succ Path.end = Path.end :=
  Path.succ_of_ge (Nat.le_of_lt hw.1)

theorem Path.succ_end_or_lt {p : Path} (hw : WellFormed p) (i : Nat) :
    p.succ i = Path.end ∨ p.succ i < p.size := by
  by_cases h : i < p._nodes.length
  · have h2 := hw.2.2 (p._nodes[i]) (List.getElem_mem h)
    simpa [Path.succ, List.getElem?_eq_getElem h] using h2
  · exact Or.inl (Path.succ_of_ge (Nat.not_lt.mp h))

theorem Path.iter_zero (p : Path) (a : Nat) : p.iter a 0 = a := rfl

theorem Path.iter_succ (p : Path) (a : Nat) (k : Nat) :
    p.iter a (k + 1) = p.succ (p.iter a k) := by
  simp [Path.iter, Function.iterate_succ_apply']

theorem Path.iter_add (p : Path) (a : Nat) (j k : Nat) :
    p.iter a (j + k) = p.iter (p.iter a j) k := by
  simp [Path.iter, Nat.add_comm j k, Function.iterate_add_apply]

theorem Path.iter_end {p : Path} (hw : WellFormed p) (k : Nat) :
    p.iter Path.end k = Path.end := by
  induction k with
  | zero => rfl
  | succ k ih => rw [Path.iter_succ, ih, Path.succ_end hw]

theorem Path.iter_end_or_lt {p : Path} (hw : WellFormed p) {a : Nat}
    (ha : a = Path.end ∨ a < p.size) (k : Nat) :
    p.iter a k = Path.end ∨ p.iter a k < p.size := by
  cases k with
  | zero => exact ha
  | succ k => rw [Path.iter_succ]; exact Path.succ_end_or_lt hw _

theorem Path.iter_absorb {p : Path} (hw : WellFormed p) {a : Nat} {k j : Nat}
    (h : p.iter a k = Path.end) (hkj : k ≤ j) : p.iter a j = Path.end := by
  obtain ⟨d, rfl⟩ := Nat.exists_eq_add_of_le hkj
  rw [Path.iter_add, h, Path.iter_end hw]

theorem Path.iter_lt_of_ne_end {p : Path} (hw : WellFormed p) {a : Nat}
    (ha : a = Path.end ∨ a < p.size) {k : Nat} (h : p.iter a k ≠ Path.end) :
    p.iter a k < p.size :=
  (Path.iter_end_or_lt hw ha k).resolve_left h

theorem Path.lt_ne_end {p : Path} (hw : WellFormed p) {i : Nat} (h : i < p.size) :
    i ≠ Path.end := by
  have := hw.1
  omega

theorem Path.start_end_or_lt {p : Path} (hw : WellFormed p) :
    p._start = Path.end ∨ p._start < p.size := hw.2.1

/-- A repeated position makes the walk periodic from there on. -/
theorem Path.iter_shift {p : Path} {a : Nat} {i j : Nat}
    (h : p.iter a i = p.iter a j) (s : Nat) : p.iter a (i + s) = p.iter a (j + s) := by
  rw [Path.iter_add, Path.iter_add, h]

theorem Path.iter_period {p : Path} {a : Nat} {i d : Nat}
    (h : p.iter a (i + d) = p.iter a i) (n : Nat) : p.iter a (i + n * d) = p.iter a i := by
  induction n with
  | zero => simp
  | succ n ih =>
    have h1 := Path.iter_shift h (n * d)
    have e1 : i + (n + 1) * d = i + d + n * d := by ring
    rw [e1, h1, ih]

/-- A walk that reaches the sentinel never visits a node twice. -/
theorem Path.no_repeat_of_end {p : Path} (hw : WellFormed p) {a : Nat} {e : Nat}
    (he : p.iter a e = Path.end) {i j : Nat} (hij : i < j) (h : p.iter a i = p.iter a j) :
    p.iter a i = Path.end := by
  obtain ⟨d, rfl⟩ := Nat.exists_eq_add_of_lt hij
  have hper : p.iter a (i + (d + 1)) = p.iter a i := by rw [h]; rfl
  have h1 := Path.iter_period hper e
  rw [← h1]
  apply Path.iter_absorb hw he
  nlinarith

/-- Pigeonhole: pairwise different valid indices are at most as many as the arena has. -/
theorem Path.card_le_size (p : Path) (x : Nat → Nat) (n : Nat)
    (hv : ∀ k, k < n → x k < p.size)
    (hinj : ∀ i j, i < j → j < n → x i ≠ x j) : n ≤ p.size := by
  have h := Finset.card_le_card_of_injOn (s := Finset.range n) (t := Finset.range p.size) x
    (fun k hk => by simpa using hv k (by simpa using hk))
    (fun i hi j hj hxy => by
      have hi1 : i < n := by simpa using hi
      have hj1 : j < n := by simpa using hj
      by_contra hne
      rcases Nat.lt_or_gt_of_ne hne with hlt | hlt
      · exact hinj i j hlt hj1 hxy
      · exact hinj j i hlt hi1 hxy.symm)
  simpa using h

/-! ## Lassos: the shape of a walk that never ends -/

theorem Lasso.step {p : Path} {a m l : Nat} (h : Lasso p a m l) {k : Nat} (hk : m ≤ k) :
    p.iter a (k + l) = p.iter a k := by
  obtain ⟨s, rfl⟩ := Nat.exists_eq_add_of_le hk
  have h1 := Path.iter_shift h.per s
  have e : m + s + l = m + l + s := by omega
  rw [e]; exact h1

theorem Lasso.period {p : Path} {a m l : Nat} (h : Lasso p a m l) {k : Nat} (hk : m ≤ k)
    (n : Nat) : p.iter a (k + n * l) = p.iter a k :=
  Path.iter_period (h.step hk) n

/-- Every position of a lasso is the position of an index below `m + l`. -/
theorem Lasso.reduce {p : Path} {a m l : Nat} (h : Lasso p a m l) {k : Nat} (hk : m ≤ k) :
    p.iter a (m + (k - m) % l) = p.iter a k := by
  have h1 := h.period (Nat.le_add_right m ((k - m) % l)) ((k - m) / l)
  have e : m + (k - m) % l + (k - m) / l * l = k := by
    have := Nat.mod_add_div (k - m) l
    rw [Nat.mul_comm] at this
    omega
  rw [e] at h1
  exact h1.symm

theorem Lasso.reduce_lt {m l : Nat} (hl : 1 ≤ l) (k : Nat) : m + (k - m) % l < m + l := by
  have := Nat.mod_lt (k - m) (Nat.lt_of_lt_of_le Nat.zero_lt_one hl)
  omega

theorem Lasso.ne_of_ne {p : Path} {a m l : Nat} (h : Lasso p a m l) {i j : Nat}
    (hi : i < m + l) (hj : j < m + l) (hne : i ≠ j) : p.iter a i ≠ p.iter a j := by
  rcases Nat.lt_or_gt_of_ne hne with hlt | hlt
  · exact h.inj i j hlt hj
  · exact fun e => h.inj j i hlt hi e.symm

/-- Two positions of a lasso hold the same node exactly when both are on the cycle and
their distance is a multiple of the cycle length. -/
theorem Lasso.eq_iff {p : Path} {a m l : Nat} (h : Lasso p a m l) {i j : Nat} (hij : i < j) :
    p.iter a i = p.iter a j ↔ m ≤ i ∧ l ∣ j - i := by
  have hl := h.one_le
  constructor
  · intro e
    by_cases hi : i < m
    · exfalso
      by_cases hj : j < m
      · exact h.inj i j hij (by omega) e
      · have hj1 : m ≤ j := Nat.not_lt.mp hj
        have e2 : p.iter a i = p.iter a (m + (j - m) % l) := by rw [h.reduce hj1]; exact e
        exact h.inj i _ (by omega) (Lasso.reduce_lt hl j) e2
    · have hi1 : m ≤ i := Nat.not_lt.mp hi
      have hj1 : m ≤ j := by omega
      refine ⟨hi1, ?_⟩
      have e2 : p.iter a (m + (i - m) % l) = p.iter a (m + (j - m) % l) := by
        rw [h.reduce hi1, h.reduce hj1]; exact e
      have e3 : m + (i - m) % l = m + (j - m) % l := by
        by_contra hne
        exact h.ne_of_ne (Lasso.reduce_lt hl i) (Lasso.reduce_lt hl j) hne e2
      have e4 : (i - m) ≡ (j - m) [MOD l] := Nat.add_left_cancel e3
      have e5 := (Nat.modEq_iff_dvd' (by omega : i - m ≤ j - m)).mp e4
      have e6 : j - m - (i - m) = j - i := by omega
      rw [e6] at e5
      exact e5
  · rintro ⟨hi, n, hn⟩
    have e : j = i + n * l := by rw [Nat.mul_comm]; omega
    rw [e, h.period hi]

theorem Lasso.ne_end_all {p : Path} (hw : WellFormed p) {a m l : Nat} (h : Lasso p a m l)
    (k : Nat) : p.iter a k ≠ Path.end := by
  intro hk
  have h1 := h.period (Nat.le_refl m) k
  have h2 : p.iter a (m + k * l) = Path.end :=
    Path.iter_absorb hw hk (by have := h.one_le; nlinarith)
  exact h.ne_end (h1 ▸ h2)

theorem Lasso.lt_size {p : Path} (hw : WellFormed p) {a m l : Nat} (h : Lasso p a m l)
    (ha : a = Path.end ∨ a < p.size) (k : Nat) : p.iter a k < p.size :=
  Path.iter_lt_of_ne_end hw ha (h.ne_end_all hw k)

/-- The nodes of the tail and of the cycle are nodes of the arena. -/
theorem Lasso.le_size {p : Path} (hw : WellFormed p) {a m l : Nat} (h : Lasso p a m l)
    (ha : a = Path.end ∨ a < p.size) : m + l ≤ p.size :=
  Path.card_le_size p (p.iter a) (m + l) (fun k _ => h.lt_size hw ha k) h.inj

/-- The index `m` of a lasso is the least index whose node is visited again. -/
theorem Lasso.first_revisited {p : Path} {a m l : Nat} (h : Lasso p a m l) :
    (∃ j, m < j ∧ p.iter a m = p.iter a j) ∧
    ∀ k, k < m → ∀ j, k < j → p.iter a k ≠ p.iter a j := by
  refine ⟨⟨m + l, by have := h.one_le; omega, h.per.symm⟩, ?_⟩
  intro k hk j hj e
  have := ((h.eq_iff hj).mp e).1
  omega

/-- A walk that never ends is a lasso. -/
theorem Path.exists_lasso {p : Path} (hw : WellFormed p) {a : Nat}
    (ha : a = Path.end ∨ a < p.size) (hne : ∀ k, p.iter a k ≠ Path.end) :
    ∃ m l, Lasso p a m l := by
  classical
  have hex : ∃ j, ∃ i, i < j ∧ p.iter a i = p.iter a j := by
    by_contra hno
    have h1 : ∀ i j, i < j → j < p.size + 1 → p.iter a i ≠ p.iter a j :=
      fun i j hij _ e => hno ⟨j, i, hij, e⟩
    have h2 := Path.card_le_size p (p.iter a) (p.size + 1)
      (fun k _ => Path.iter_lt_of_ne_end hw ha (hne k)) h1
    omega
  obtain ⟨i, hij, e⟩ := Nat.find_spec hex
  have hmin : ∀ j, j < Nat.find hex → ∀ i, i < j → p.iter a i ≠ p.iter a j :=
    fun j hj i hi e => Nat.find_min hex hj ⟨i, hi, e⟩
  refine ⟨i, Nat.find hex - i, ?_⟩
  have e1 : i + (Nat.find hex - i) = Nat.find hex := by omega
  exact
    { one_le := by omega
      ne_end := hne i
      inj := fun i1 j1 h1 h2 => hmin j1 (by omega) i1 h1
      per := by rw [e1]; exact e.symm }

/-! ## The traversal functions -/

theorem Path.iter_succ_left (p : Path) (a : Nat) (k : Nat) :
    p.iter a (k + 1) = p.iter (p.succ a) k := by
  simp [Path.iter, Function.iterate_succ_apply]

theorem nextNodeIndex_ok {p : Path} : ∀ (k n : Nat),
    (∀ i, i < k → p.iter n i < p.size) → nextNodeIndex p n k = .ok (p.iter n k)
  | 0, n, _ => rfl
  | k + 1, n, h => by
    have h0 : n < p.size := h 0 (Nat.succ_pos k)
    rw [nextNodeIndex, Path.next_of_lt h0, Outcome.bind_ok, Path.iter_succ_left]
    apply nextNodeIndex_ok k
    intro i hi
    rw [← Path.iter_succ_left]
    exact h (i + 1) (Nat.succ_lt_succ hi)

theorem nextNodeIndex_fail {p : Path} : ∀ (k n : Nat),
    ¬ (∀ i, i < k → p.iter n i < p.size) → nextNodeIndex p n k = .assertFail
  | 0, n, h => absurd (fun i hi => absurd hi (Nat.not_lt_zero i)) h
  | k + 1, n, h => by
    by_cases h0 : n < p.size
    · rw [nextNodeIndex, Path.next_of_lt h0, Outcome.bind_ok]
      apply nextNodeIndex_fail k
      intro hall
      apply h
      intro i hi
      cases i with
      | zero => exact h0
      | succ i =>
        rw [Path.iter_succ_left]
        exact hall i (Nat.lt_of_succ_lt_succ hi)
    · rw [nextNodeIndex, Path.next_of_ge (Nat.not_lt.mp h0), Outcome.bind_assertFail]

theorem nextNodeIndex_add {p : Path} : ∀ (a n b : Nat),
    nextNodeIndex p n (a + b) = (nextNodeIndex p n a).bind fun u => nextNodeIndex p u b
  | 0, n, b => by rw [Nat.zero_add]; rfl
  | a + 1, n, b => by
    have e : a + 1 + b = (a + b) + 1 := by omega
    rw [e, nextNodeIndex, nextNodeIndex, Outcome.bind_assoc]
    congr 1
    funext n1
    exact nextNodeIndex_add a n1 b

/-- The loop of `nNodesInCycle` on a cycle of `k` nodes through `x`, entered at the
`j`-th node with the counter at `j`. -/
theorem nNodesInCycle_loop_ok {p : Path} (hw : WellFormed p) {x k : Nat}
    (h : Lasso p x 0 k) (hx : x < p.size) (fuel : Nat) :
    ∀ (d j : Nat), j + d + 1 = k →
      nNodesInCycle.loop p x (fuel + d + 1) (p.iter x j) j = .ok k := by
  have hk : k ≤ p.size := by simpa using h.le_size hw (Or.inr hx)
  have hsz := hw.1
  have hend := Path.end_eq
  intro d
  induction d with
  | zero =>
    intro j hj
    have hv : p.iter x j < p.size := h.lt_size hw (Or.inr hx) j
    have e1 : p.iter x (j + 1) = x := by
      have := h.per
      simp only [Nat.zero_add] at this
      rw [hj, this]; rfl
    rw [nNodesInCycle.loop, if_neg (Path.lt_ne_end hw hv), Path.next_of_lt hv, Outcome.bind_ok,
      ← Path.iter_succ, if_pos e1, hj, Nat.mod_eq_of_lt (by omega)]
  | succ d ih =>
    intro j hj
    have hv : p.iter x j < p.size := h.lt_size hw (Or.inr hx) j
    have e1 : p.iter x (j + 1) ≠ x := by
      intro e
      exact h.inj 0 (j + 1) (Nat.succ_pos j) (by omega) e.symm
    rw [nNodesInCycle.loop, if_neg (Path.lt_ne_end hw hv), Path.next_of_lt hv, Outcome.bind_ok,
      ← Path.iter_succ, if_neg e1, Nat.mod_eq_of_lt (by omega)]
    exact ih (j + 1) (by omega)

theorem nNodesInCycle_lasso {p : Path} (hw : WellFormed p) {x k : Nat}
    (h : Lasso p x 0 k) (hx : x < p.size) {fuel : Nat} (hf : k ≤ fuel) :
    nNodesInCycle fuel p x = .ok k := by
  have hk := h.one_le
  rw [nNodesInCycle, if_neg (Path.lt_ne_end hw hx)]
  have h1 := nNodesInCycle_loop_ok hw h hx (fuel - k) (k - 1) 0 (by omega)
  have e : fuel - k + (k - 1) + 1 = fuel := by omega
  rw [e] at h1
  exact h1

/-- A node that comes back to itself after `k` links, and not earlier, spans a lasso
without a tail. -/
theorem Lasso.of_cycle {p : Path} (hw : WellFormed p) {x k : Nat} (hx : x < p.size)
    (hk : 1 ≤ k) (hper : p.iter x k = x) (hmin : ∀ j, 1 ≤ j → j < k → p.iter x j ≠ x) :
    Lasso p x 0 k where
  one_le := hk
  ne_end := Path.lt_ne_end hw hx
  per := by simpa using hper
  inj := by
    intro i j hij hj e
    have h1 := Path.iter_shift e (k - j)
    have e2 : j + (k - j) = k := by omega
    rw [e2, hper] at h1
    exact hmin (i + (k - j)) (by omega) (by omega) h1

/-- The loop of `nNodesBefore`, entered at position `j` with the counter at `j`, where
`n` is the first position holding the target. -/
theorem nNodesBefore_loop_ok {p : Path} {t n : Nat} (hn : n < 2 ^ 64)
    (hv : ∀ j, j < n → p.pos j < p.size) (hne : ∀ j, j < n → p.pos j ≠ t)
    (ht : p.pos n = t) (fuel : Nat) :
    ∀ (d j : Nat), j + d = n →
      nNodesBefore.loop p t (fuel + d + 1) (p.pos j) j = .ok n := by
  intro d
  induction d with
  | zero =>
    intro j hj
    have e : j = n := by omega
    rw [nNodesBefore.loop, e, if_pos ht]
  | succ d ih =>
    intro j hj
    rw [nNodesBefore.loop, if_neg (hne j (by omega)), Path.next_of_lt (hv j (by omega)),
      Outcome.bind_ok, Nat.mod_eq_of_lt (by omega)]
    have e1 : p.succ (p.pos j) = p.pos (j + 1) := (Path.iter_succ p p._start j).symm
    rw [e1]
    exact ih (j + 1) (by omega)

/-! ## Locating the start of the cycle -/

theorem Path.pos_succ (p : Path) (k : Nat) : p.pos (k + 1) = p.succ (p.pos k) :=
  Path.iter_succ p p._start k

theorem Path.pos_zero (p : Path) : p.pos 0 = p._start := rfl

/-- Every node on the cycle of a lasso spans that cycle. -/
theorem Lasso.on_cycle {p : Path} (hw : WellFormed p) {a m l : Nat} (h : Lasso p a m l)
    {t : Nat} (ht : m ≤ t) : Lasso p (p.iter a t) 0 l where
  one_le := h.one_le
  ne_end := h.ne_end_all hw t
  per := by
    rw [Nat.zero_add, ← Path.iter_add]
    exact h.step ht
  inj := by
    intro i j hij hj e
    rw [← Path.iter_add, ← Path.iter_add] at e
    have h1 := ((h.eq_iff (by omega : t + i < t + j)).mp e).2
    have h2 : t + j - (t + i) = j - i := by omega
    rw [h2] at h1
    have := Nat.le_of_dvd (by omega) h1
    omega

theorem startOfCycleContaining_loop_ok {p : Path} (hw : WellFormed p) {m l : Nat}
    (h : Lasso p p._start m l) (fuel : Nat) :
    ∀ (d j : Nat), j + d = m →
      startOfCycleContaining.loop p (fuel + d + 1) (p.pos j) (p.pos (j + l)) = .ok (p.pos m) := by
  have hv : ∀ k, p.pos k < p.size := fun k => h.lt_size hw hw.2.1 k
  intro d
  induction d with
  | zero =>
    intro j hj
    have e : j = m := by omega
    have e1 : p.pos m = p.pos (m + l) := h.per.symm
    rw [startOfCycleContaining.loop, e, if_pos e1]
  | succ d ih =>
    intro j hj
    have e1 : p.pos j ≠ p.pos (j + l) := h.inj j (j + l) (by have := h.one_le; omega) (by omega)
    rw [startOfCycleContaining.loop, if_neg e1, Path.next_of_lt (hv j),
      Path.next_of_lt (hv (j + l)), Outcome.bind_ok, Outcome.bind_ok, ← Path.pos_succ,
      ← Path.pos_succ]
    have e2 : j + l + 1 = j + 1 + l := by omega
    rw [e2]
    exact ih (j + 1) (by omega)

/-- Phase 2: from any node on the cycle, `startOfCycleContaining` returns the first node
of the cycle. -/
theorem startOfCycleContaining_ok {p : Path} (hw : WellFormed p) {m l : Nat}
    (h : Lasso p p._start m l) {t : Nat} (ht : m ≤ t) {fuel : Nat} (hf : m + l ≤ fuel) :
    startOfCycleContaining fuel p (p.pos t) = .ok (p.pos m) := by
  have hv : ∀ k, p.pos k < p.size := fun k => h.lt_size hw hw.2.1 k
  have h1 : nNodesInCycle fuel p (p.pos t) = .ok l :=
    nNodesInCycle_lasso hw (h.on_cycle hw ht) (hv t) (by omega)
  have h2 : nextNodeIndex p p._start l = .ok (p.pos l) :=
    nextNodeIndex_ok l p._start (fun i _ => hv i)
  have h3 := startOfCycleContaining_loop_ok hw h (fuel - m - 1) m 0 (by omega)
  have e : fuel - m - 1 + m + 1 = fuel := by have := h.one_le; omega
  rw [e, Nat.zero_add] at h3
  rw [startOfCycleContaining, h1, Outcome.bind_ok]
  simp only [Path.start]
  rw [h2, Outcome.bind_ok]
  exact h3

/-! ## Phase 1 of `findCycle` -/

theorem Outcome.bind_count_zero {α : Type} (x : Outcome (α × Nat)) :
    (x.bind fun r => .ok (r.1, r.2 + 0)) = x := by
  cases x <;> rfl

/-- The loop of `findCycle` is its trace followed by the return statement that was
reached. -/
theorem findCycle.loop_eq_trace (p : Path) (fuel2 : Nat) : ∀ (fuel i1 i2 : Nat),
    findCycle.loop p fuel2 fuel i1 i2 =
      (findCycle.trace p fuel i1 i2).bind fun r => r.1.finish fuel2 p
  | 0, _, _ => rfl
  | fuel + 1, i1, i2 => by
    rw [findCycle.loop, findCycle.trace]
    cases p.next i2 with
    | assertFail => rfl
    | outOfFuel => rfl
    | ok i2a =>
      simp only [Outcome.bind_ok]
      by_cases c1 : i2a = Path.end
      · simp [c1, LoopExit.finish]
      by_cases c2 : i2a = i1
      · rw [if_neg c1, if_pos c2, if_neg c1, if_pos c2]; rfl
      simp only [if_neg c1, if_neg c2]
      cases p.next i2a with
      | assertFail => rfl
      | outOfFuel => rfl
      | ok i2b =>
        simp only [Outcome.bind_ok]
        by_cases c3 : i2b = Path.end
        · simp [c3, LoopExit.finish]
        by_cases c4 : i2b = i1
        · rw [if_neg c3, if_pos c4, if_neg c3, if_pos c4]; rfl
        simp only [if_neg c3, if_neg c4]
        cases p.next i1 with
        | assertFail => rfl
        | outOfFuel => rfl
        | ok i1a =>
          simp only [Outcome.bind_ok]
          by_cases c5 : i1a = i2b
          · simp [c5, LoopExit.finish]
          simp only [if_neg c5]
          rw [findCycle.loop_eq_trace p fuel2 fuel i1a i2b, Outcome.bind_assoc]
          rfl

/-- One iteration of the loop of `findCycle`, entered with the slow pointer at position
`t` and the fast pointer at position `2 * t`. -/
theorem findCycle.trace_step {p : Path} (hw : WellFormed p) (fuel t : Nat)
    (h2t : p.pos (2 * t) ≠ Path.end) :
    findCycle.trace p (fuel + 1) (p.pos t) (p.pos (2 * t)) =
      if p.NoExit t then
        (findCycle.trace p fuel (p.pos (t + 1)) (p.pos (2 * t + 2))).bind
          fun r => .ok (r.1, r.2 + 1)
      else .ok (p.exitAt t, 1) := by
  have hv : ∀ k, p.pos k ≠ Path.end → p.pos k < p.size :=
    fun k hk => Path.iter_lt_of_ne_end hw hw.2.1 hk
  have ht : p.pos t ≠ Path.end := fun e => h2t (Path.iter_absorb hw e (by omega))
  rw [findCycle.trace, Path.next_of_lt (hv _ h2t), Outcome.bind_ok, ← Path.pos_succ]
  unfold Path.NoExit Path.exitAt
  by_cases c1 : p.pos (2 * t + 1) = Path.end
  · simp [c1]
  by_cases c2 : p.pos (2 * t + 1) = p.pos t
  · simp [c1, c2, ht]
  rw [if_neg c1, if_neg c2, Path.next_of_lt (hv _ c1), Outcome.bind_ok, ← Path.pos_succ]
  by_cases c3 : p.pos (2 * t + 2) = Path.end
  · simp [c1, c2, c3]
  by_cases c4 : p.pos (2 * t + 2) = p.pos t
  · simp [c1, c2, c3, c4, ht]
  rw [if_neg c3, if_neg c4, Path.next_of_lt (hv _ ht), Outcome.bind_ok, ← Path.pos_succ]
  by_cases c5 : p.pos (t + 1) = p.pos (2 * t + 2)
  · simp [c1, c2, c3, c4, c5]
  simp [c1, c2, c3, c4, c5]

/-- The iterations of the loop of `findCycle` in which no test succeeds. -/
theorem findCycle.trace_skip {p : Path} (hw : WellFormed p) (hs : p._start ≠ Path.end) :
    ∀ (T fuel : Nat), (∀ s, s < T → p.NoExit s) →
      findCycle.trace p (fuel + T) (p.pos 0) (p.pos 0) =
        (findCycle.trace p fuel (p.pos T) (p.pos (2 * T))).bind fun r => .ok (r.1, r.2 + T)
  | 0, fuel, _ => (Outcome.bind_count_zero _).symm
  | T + 1, fuel, h => by
    have h2T : p.pos (2 * T) ≠ Path.end := by
      cases T with
      | zero => exact hs
      | succ T => exact (h T (by omega)).2.2.1
    have e : fuel + (T + 1) = fuel + 1 + T := by omega
    rw [e, findCycle.trace_skip hw hs T (fuel + 1) (fun s hs => h s (by omega)),
      findCycle.trace_step hw fuel T h2T, if_pos (h T (Nat.lt_succ_self T)), Outcome.bind_assoc]
    simp only [Outcome.bind_ok, Nat.add_assoc, Nat.add_comm 1 T]
    rfl

/-- The loop of `findCycle` is left in the first iteration in which a test succeeds. -/
theorem findCycle.trace_exit {p : Path} (hw : WellFormed p) (hs : p._start ≠ Path.end)
    {T : Nat} (hq : ∀ s, s < T → p.NoExit s) (hT : ¬ p.NoExit T) {fuel : Nat}
    (hf : T + 1 ≤ fuel) :
    findCycle.trace p fuel p._start p._start = .ok (p.exitAt T, T + 1) := by
  have h2T : p.pos (2 * T) ≠ Path.end := by
    cases T with
    | zero => exact hs
    | succ T => exact (hq T (by omega)).2.2.1
  have h1 := findCycle.trace_skip hw hs T (fuel - T) hq
  have e : fuel - T + T = fuel := by omega
  have e2 : fuel - T = fuel - T - 1 + 1 := by omega
  rw [e, e2, findCycle.trace_step hw _ T h2T, if_neg hT, Outcome.bind_ok] at h1
  simpa [Nat.add_comm] using h1

/-- The positions before the first sentinel of a walk are pairwise different nodes of
the arena. -/
theorem Path.before_end {p : Path} (hw : WellFormed p) {e : Nat} (he : p.pos e = Path.end)
    (hmin : ∀ k, k < e → p.pos k ≠ Path.end) :
    (∀ i j, i < j → i < e → p.pos i ≠ p.pos j) ∧ e ≤ p.size := by
  have h1 : ∀ i j, i < j → i < e → p.pos i ≠ p.pos j :=
    fun i j hij hi h => hmin i hi (Path.no_repeat_of_end hw he hij h)
  exact ⟨h1, Path.card_le_size p p.pos e
    (fun k hk => Path.iter_lt_of_ne_end hw hw.2.1 (hmin k hk))
    (fun i j hij hj => h1 i j hij (by omega))⟩

/-- Phase 1 on a walk that ends: the loop is left because the fast pointer runs off the
path, after at most as many iterations as the arena has nodes. -/
theorem findCycle.trace_of_end {p : Path} (hw : WellFormed p) (hs : p._start ≠ Path.end)
    (hex : ∃ e, p.pos e = Path.end) :
    ∃ T, T + 1 ≤ p.size ∧ ∀ fuel, T + 1 ≤ fuel →
      findCycle.trace p fuel p._start p._start = .ok (.ranOff, T + 1) := by
  classical
  have he := Nat.find_spec hex
  have hmin : ∀ k, k < Nat.find hex → p.pos k ≠ Path.end := fun k hk => Nat.find_min hex hk
  generalize Nat.find hex = e at he hmin
  obtain ⟨hne, hsz⟩ := Path.before_end hw he hmin
  have he1 : 1 ≤ e := by
    rcases Nat.eq_zero_or_pos e with h0 | h0
    · rw [h0] at he; exact absurd he hs
    · exact h0
  have hq : ∀ s, s < (e - 1) / 2 → p.NoExit s := by
    intro s hs
    have h2 : 2 * s + 2 < e := by omega
    exact ⟨hmin _ (by omega), (hne _ _ (by omega) (by omega)).symm, hmin _ h2,
      (hne _ _ (by omega) (by omega)).symm, hne _ _ (by omega) (by omega)⟩
  have hcase : e = 2 * ((e - 1) / 2) + 1 ∨ e = 2 * ((e - 1) / 2) + 2 := by omega
  have hT : ¬ p.NoExit ((e - 1) / 2) := by
    rintro ⟨c1, _, c3, _, _⟩
    rcases hcase with h | h
    · rw [← h] at c1; exact c1 he
    · rw [← h] at c3; exact c3 he
  have hx : p.exitAt ((e - 1) / 2) = .ranOff := by
    unfold Path.exitAt
    by_cases c1 : p.pos (2 * ((e - 1) / 2) + 1) = Path.end
    · rw [if_pos c1]
    have h2 : e = 2 * ((e - 1) / 2) + 2 := by
      rcases hcase with h | h
      · rw [← h] at c1; exact absurd he c1
      · exact h
    rw [if_neg c1, if_neg (hne _ _ (by omega) (by omega)).symm, ← h2, if_pos he]
  refine ⟨(e - 1) / 2, by omega, fun fuel hf => ?_⟩
  rw [findCycle.trace_exit hw hs hq hT hf, hx]

/-- Phase 1 on a lasso: the loop is left in some iteration `T`, either because the fast
pointer met the slow pointer on the cycle, or because the slow pointer, entering the
cycle, met the fast pointer. -/
theorem findCycle.trace_of_lasso {p : Path} (hw : WellFormed p) {m l : Nat}
    (h : Lasso p p._start m l) :
    ∃ T, T + 1 ≤ m + l ∧ (∀ s, s < T → p.NoExit s) ∧
      ((p.exitAt T = .fastMetSlow (p.pos T) ∧ m ≤ T) ∨
        (p.exitAt T = .slowMetFast (p.pos m) ∧ T + 1 = m)) ∧
      ∀ fuel, T + 1 ≤ fuel →
        findCycle.trace p fuel p._start p._start = .ok (p.exitAt T, T + 1) := by
  classical
  have hl := h.one_le
  have hs : p._start ≠ Path.end := h.ne_end_all hw 0
  have hne : ∀ k, p.pos k ≠ Path.end := h.ne_end_all hw
  have hex : ∃ s, ¬ p.NoExit s ∧ s + 1 ≤ m + l := by
    rcases Nat.eq_zero_or_pos m with hm | hm
    · refine ⟨l - 1, ?_, by omega⟩
      rintro ⟨_, c2, _, _, _⟩
      apply c2
      refine ((h.eq_iff (by omega : l - 1 < 2 * (l - 1) + 1)).mpr ⟨by omega, ?_⟩).symm
      have e : 2 * (l - 1) + 1 - (l - 1) = l := by omega
      rw [e]
    · have hdm := Nat.div_add_mod (m + l - 1) l
      have hlt := Nat.mod_lt (m + l - 1) (by omega : 0 < l)
      refine ⟨l * ((m + l - 1) / l) - 1, ?_, by omega⟩
      rintro ⟨_, _, _, _, c5⟩
      apply c5
      refine (h.eq_iff (by omega)).mpr ⟨by omega, ?_⟩
      have e : 2 * (l * ((m + l - 1) / l) - 1) + 2 - (l * ((m + l - 1) / l) - 1 + 1) =
          l * ((m + l - 1) / l) := by omega
      rw [e]
      exact Dvd.intro _ rfl
  have hex1 : ∃ s, ¬ p.NoExit s := ⟨hex.choose, hex.choose_spec.1⟩
  have hT := Nat.find_spec hex1
  have hq : ∀ s, s < Nat.find hex1 → p.NoExit s :=
    fun s hs => not_not.mp (Nat.find_min hex1 hs)
  have hle : Nat.find hex1 ≤ hex.choose := Nat.find_min' hex1 hex.choose_spec.1
  have hb := hex.choose_spec.2
  generalize Nat.find hex1 = T at hT hq hle
  refine ⟨T, by omega, hq, ?_, fun fuel hf => findCycle.trace_exit hw hs hq hT hf⟩
  unfold Path.exitAt
  rw [if_neg (hne _)]
  by_cases c2 : p.pos (2 * T + 1) = p.pos T
  · rw [if_pos c2]
    exact Or.inl ⟨rfl, ((h.eq_iff (by omega : T < 2 * T + 1)).mp c2.symm).1⟩
  rw [if_neg c2, if_neg (hne _)]
  by_cases c4 : p.pos (2 * T + 2) = p.pos T
  · rw [if_pos c4]
    exact Or.inl ⟨rfl, ((h.eq_iff (by omega : T < 2 * T + 2)).mp c4.symm).1⟩
  rw [if_neg c4]
  have c5 : p.pos (T + 1) = p.pos (2 * T + 2) := by
    by_contra c5
    exact hT ⟨hne _, c2, hne _, c4, c5⟩
  obtain ⟨hm, hd⟩ := (h.eq_iff (by omega : T + 1 < 2 * T + 2)).mp c5
  have e : 2 * T + 2 - (T + 1) = T + 1 := by omega
  rw [e] at hd
  have hmT : T + 1 = m := by
    by_contra hne1
    apply c2
    refine ((h.eq_iff (by omega : T < 2 * T + 1)).mpr ⟨by omega, ?_⟩).symm
    have e2 : 2 * T + 1 - T = T + 1 := by omega
    rw [e2]; exact hd
  exact Or.inr ⟨by rw [hmT], hmT⟩

/-- `findCycle` on a path whose walk ends. -/
theorem findCycle_of_end {p : Path} (hw : WellFormed p) (hex : ∃ e, p.pos e = Path.end)
    {fuel : Nat} (hf : p.size ≤ fuel) : findCycle fuel p = .ok Path.end := by
  unfold findCycle
  simp only [Path.start]
  by_cases hs : p._start = Path.end
  · rw [if_pos hs, hs]
  · obtain ⟨T, hT, ht⟩ := findCycle.trace_of_end hw hs hex
    rw [if_neg hs, findCycle.loop_eq_trace, ht fuel (by omega)]
    rfl

/-- `findCycle` on a path whose walk is a lasso. -/
theorem findCycle_of_lasso {p : Path} (hw : WellFormed p) {m l : Nat}
    (h : Lasso p p._start m l) {fuel : Nat} (hf : p.size ≤ fuel) :
    findCycle fuel p = .ok (p.pos m) := by
  have hsz := h.le_size hw hw.2.1
  obtain ⟨T, hT, _, hx, ht⟩ := findCycle.trace_of_lasso hw h
  unfold findCycle
  simp only [Path.start]
  have hs : p._start ≠ Path.end := h.ne_end_all hw 0
  rw [if_neg hs, findCycle.loop_eq_trace, ht fuel (by omega), Outcome.bind_ok]
  rcases hx with ⟨hx, hm⟩ | ⟨hx, _⟩
  · rw [hx]
    exact startOfCycleContaining_ok hw h hm (by omega)
  · rw [hx]
    rfl

/-! ## The paths built by `createPath` -/

theorem Path.size_addNode (p : Path) : p.addNode.2.size = p.size + 1 := by
  simp [Path.addNode, Path.size]

theorem Path.succ_addNode (p : Path) (i : Nat) : p.addNode.2.succ i = p.succ i := by
  rcases Nat.lt_trichotomy i p._nodes.length with h | h | h
  · simp [Path.succ, Path.addNode, List.getElem?_append_left h]
  · subst h
    simp [Path.succ, Path.addNode]
  · have h1 : p.addNode.2.size ≤ i := by rw [Path.size_addNode]; exact h
    rw [Path.succ_of_ge h1, Path.succ_of_ge (Nat.le_of_lt h)]

theorem Path.setNext_start {p : Path} {t : Nat} (ht : t < p.size) :
    p.setNext Path.end t = .ok { p with _start := t } := by
  have h1 : t < p._nodes.length := ht
  simp [Path.setNext, Path.checkNodeIndex, h1]

theorem Path.setNext_node {p : Path} {a t : Nat} (ha : a ≠ Path.end) (hv : a < p.size)
    (ht : t = Path.end ∨ t < p.size) :
    p.setNext a t = .ok { p with _nodes := p._nodes.set a { next := t } } := by
  have h1 : a < p._nodes.length := hv
  have h2 : p.checkMaybeNodeIndex t = .ok () := by
    unfold Path.checkMaybeNodeIndex Path.checkNodeIndex
    rcases ht with ht | ht
    · rw [if_pos ht]
    · have h3 : t < p._nodes.length := ht
      simp [h3]
  simp [Path.setNext, ha, h2, Path.checkNodeIndex, h1]

theorem Path.succ_set (p : Path) (a t i : Nat) (hv : a < p.size) :
    ({ p with _nodes := p._nodes.set a { next := t } } : Path).succ i =
      if i = a then t else p.succ i := by
  have h1 : a < p._nodes.length := hv
  by_cases h : i = a
  · subst h
    simp [Path.succ, h1]
  · have h2 : a ≠ i := fun e => h e.symm
    simp [Path.succ, h, List.getElem?_set_ne h2]

/-- One iteration of either loop of `createPath`. -/
theorem Chained.add_node {p : Path} {prev n : Nat} (h : Chained p prev n) (hn : n + 1 < Path.end) :
    ∃ p1, p.addNode.2.setNext prev p.addNode.1 = .ok p1 ∧ p.addNode.1 = n ∧
      Chained p1 n (n + 1) := by
  have hsz : p._nodes.length = n := h.size_eq
  have hidx : p.addNode.1 = n := hsz
  have hsz1 : p.addNode.2.size = n + 1 := by rw [Path.size_addNode, h.size_eq]
  rw [hidx]
  rcases Nat.eq_zero_or_pos n with h0 | h0
  · subst h0
    have hp : prev = Path.end := by simpa using h.prev_eq
    rw [hp, Path.setNext_start (by omega)]
    refine ⟨_, rfl, rfl, ?_⟩
    exact
      { size_eq := hsz1
        start_eq := rfl
        prev_eq := rfl
        link := fun i hi => absurd hi (by omega)
        last := by
          show p.addNode.2.succ 0 = Path.end
          rw [Path.succ_addNode, Path.succ_of_ge (by rw [h.size_eq])] }
  · have hp : prev = n - 1 := by
      have := h.prev_eq
      rwa [if_neg (by omega)] at this
    have hpe : prev ≠ Path.end := by omega
    rw [Path.setNext_node hpe (by omega) (Or.inr (by omega))]
    refine ⟨_, rfl, rfl, ?_⟩
    exact
      { size_eq := by
          show (p.addNode.2._nodes.set prev _).length = n + 1
          rw [List.length_set]; exact hsz1
        start_eq := by
          show p._start = _
          rw [h.start_eq, if_neg (by omega), if_neg (by omega)]
        prev_eq := by simp
        link := by
          intro i hi
          rw [Path.succ_set _ _ _ _ (by omega), Path.succ_addNode]
          by_cases hi1 : i = prev
          · rw [if_pos hi1]; omega
          · rw [if_neg hi1]; exact h.link i (by omega)
        last := by
          rw [Path.succ_set _ _ _ _ (by omega), Path.succ_addNode, if_neg (by omega)]
          exact Path.succ_of_ge (by rw [h.size_eq]; omega) }

theorem createPath.loop1_ok : ∀ (k : Nat) {p : Path} {prev n : Nat}, Chained p prev n →
    n + k < Path.end →
    ∃ p1 prev1, createPath.loop1 k p prev = .ok (p1, prev1) ∧ Chained p1 prev1 (n + k)
  | 0, p, prev, n, h, _ => ⟨p, prev, rfl, h⟩
  | k + 1, p, prev, n, h, hn => by
    obtain ⟨p1, h1, h2, h3⟩ := h.add_node (by omega)
    obtain ⟨p2, prev2, h4, h5⟩ := createPath.loop1_ok k h3 (by omega)
    have e1 : n + 1 + k = n + (k + 1) := by omega
    rw [e1] at h5
    refine ⟨p2, prev2, ?_, h5⟩
    rw [createPath.loop1, h1, Outcome.bind_ok, h2]
    exact h4

theorem createPath.loop2_ok (b : Nat) (hb : b < Path.end) :
    ∀ (k : Nat) {p : Path} {prev n : Nat}, Chained p prev n → b ≤ n → n + k < Path.end →
    ∃ p1 prev1, createPath.loop2 k p prev (if n = b then Path.end else b) =
        .ok (p1, prev1, if n + k = b then Path.end else b) ∧ Chained p1 prev1 (n + k)
  | 0, p, prev, n, h, _, _ => ⟨p, prev, rfl, h⟩
  | k + 1, p, prev, n, h, hbn, hn => by
    obtain ⟨p1, h1, h2, h3⟩ := h.add_node (by omega)
    obtain ⟨p2, prev2, h4, h5⟩ := createPath.loop2_ok b hb k h3 (by omega) (by omega)
    have e1 : n + 1 + k = n + (k + 1) := by omega
    rw [e1] at h4 h5
    refine ⟨p2, prev2, ?_, h5⟩
    rw [createPath.loop2, h1, Outcome.bind_ok, h2, ← h4]
    congr 1
    by_cases c : n = b
    · rw [if_pos c, if_pos rfl, if_neg (by omega), c]
    · rw [if_neg c, if_neg (by omega), if_neg (by omega)]

theorem Chained.init : Chained {} Path.end 0 where
  size_eq := rfl
  start_eq := rfl
  prev_eq := rfl
  link := fun _ hi => absurd hi (Nat.not_lt_zero _)
  last := rfl

/-- The function `createPath` returns, and its result has the shape asked for. -/
theorem createPath_shape {b c : Nat} (hbc : b + c < Path.end) :
    ∃ p, createPath b c = .ok p ∧ Shape p b c := by
  obtain ⟨p1, prev1, h1, c1⟩ := createPath.loop1_ok b Chained.init (by omega)
  rw [Nat.zero_add] at c1
  obtain ⟨p2, prev2, h2, c2⟩ := createPath.loop2_ok b (by omega) c c1 (Nat.le_refl b) hbc
  rw [if_pos rfl] at h2
  have e1 : (if b + c = b then Path.end else b) = if c = 0 then Path.end else b := by
    by_cases hc : c = 0
    · rw [if_pos hc, if_pos (by omega)]
    · rw [if_neg hc, if_neg (by omega)]
  rw [e1] at h2
  unfold createPath
  rw [h1, Outcome.bind_ok, h2, Outcome.bind_ok]
  simp only []
  rcases Nat.eq_zero_or_pos (b + c) with h0 | h0
  · have hp : prev2 = Path.end := by
      have := c2.prev_eq
      rwa [if_pos h0] at this
    refine ⟨p2, by rw [if_neg (not_not.mpr hp)], ?_⟩
    exact
      { size_eq := c2.size_eq
        start_eq := c2.start_eq
        link := c2.link
        last := fun h => absurd h (by omega) }
  · have hp : prev2 = b + c - 1 := by
      have := c2.prev_eq
      rwa [if_neg (by omega)] at this
    have hpe : prev2 ≠ Path.end := by omega
    have hsz := c2.size_eq
    have ht : (if c = 0 then Path.end else b) = Path.end ∨
        (if c = 0 then Path.end else b) < p2.size := by
      by_cases hc : c = 0
      · rw [if_pos hc]; exact Or.inl rfl
      · rw [if_neg hc]; right; omega
    rw [if_pos hpe, Path.setNext_node hpe (by omega) ht]
    refine ⟨_, rfl, ?_⟩
    exact
      { size_eq := by
          show (p2._nodes.set prev2 _).length = b + c
          rw [List.length_set]; exact hsz
        start_eq := c2.start_eq
        link := by
          intro i hi
          rw [Path.succ_set _ _ _ _ (by omega), if_neg (by omega)]
          exact c2.link i hi
        last := by
          intro _
          rw [Path.succ_set _ _ _ _ (by omega), if_pos hp.symm] }

theorem Path.succ_getElem (p : Path) (i : Nat) (h : i < p._nodes.length) :
    (p._nodes[i]).next = p.succ i := by
  simp [Path.succ, List.getElem?_eq_getElem h]

theorem Shape.wellFormed {p : Path} {b c : Nat} (h : Shape p b c) (hbc : b + c < Path.end) :
    WellFormed p := by
  have hsz := h.size_eq
  refine ⟨by omega, ?_, ?_⟩
  · rw [h.start_eq]
    by_cases h0 : b + c = 0
    · rw [if_pos h0]; exact Or.inl rfl
    · rw [if_neg h0]; right; omega
  · intro nd hnd
    obtain ⟨i, hi, rfl⟩ := List.getElem_of_mem hnd
    have hi1 : i < b + c := by rw [← hsz]; exact hi
    rw [Path.succ_getElem]
    by_cases h1 : i + 1 < b + c
    · rw [h.link i h1]; right; omega
    · have e : i = b + c - 1 := by omega
      rw [e, h.last (by omega)]
      by_cases hc : c = 0
      · rw [if_pos hc]; exact Or.inl rfl
      · rw [if_neg hc]; right; omega

/-- The walk of the path visits the nodes in the order of their indices. -/
theorem Shape.pos_lt {p : Path} {b c : Nat} (h : Shape p b c) :
    ∀ k, k < b + c → p.pos k = k
  | 0, hk => by
    show p._start = 0
    rw [h.start_eq, if_neg (by omega)]
  | k + 1, hk => by
    rw [Path.pos_succ, Shape.pos_lt h k (by omega), h.link k hk]

theorem Shape.pos_last {p : Path} {b c : Nat} (h : Shape p b c) :
    p.pos (b + c) = if c = 0 then Path.end else b := by
  rcases Nat.eq_zero_or_pos (b + c) with h0 | h0
  · have hc : c = 0 := by omega
    rw [h0, if_pos hc]
    show p._start = Path.end
    rw [h.start_eq, if_pos h0]
  · obtain ⟨n, hn⟩ : ∃ n, b + c = n + 1 := ⟨b + c - 1, by omega⟩
    have h1 := h.last h0
    rw [hn] at h1 ⊢
    rw [Path.pos_succ, h.pos_lt n (by omega)]
    exact h1

theorem Shape.lasso {p : Path} {b c : Nat} (h : Shape p b c) (hbc : b + c < Path.end)
    (hc : 1 ≤ c) : Lasso p p._start b c where
  one_le := hc
  ne_end := by
    show p.pos b ≠ Path.end
    rw [h.pos_lt b (by omega)]; omega
  inj := by
    intro i j hij hj
    show p.pos i ≠ p.pos j
    rw [h.pos_lt i (by omega), h.pos_lt j hj]; omega
  per := by
    show p.pos (b + c) = p.pos b
    rw [h.pos_last, if_neg (by omega), h.pos_lt b (by omega)]

/-! ## The function `nNodesBefore` -/

theorem nNodesBefore_ok {p : Path} (hw : WellFormed p) {t n : Nat} (ht : p.pos n = t)
    (hmin : ∀ j, j < n → p.pos j ≠ t) :
    n ≤ p.size ∧ ∀ fuel, n < fuel → nNodesBefore fuel p t = .ok n := by
  have hne : ∀ j, j < n → p.pos j ≠ Path.end := by
    intro j hj e
    have h1 : p.pos n = Path.end := Path.iter_absorb hw e (Nat.le_of_lt hj)
    exact hmin j hj (by rw [e, ← h1, ht])
  have hv : ∀ j, j < n → p.pos j < p.size :=
    fun j hj => Path.iter_lt_of_ne_end hw hw.2.1 (hne j hj)
  have hinj : ∀ i j, i < j → j < n → p.pos i ≠ p.pos j := by
    intro i j hij hj e
    have h1 : p.pos (i + (n - j)) = p.pos (j + (n - j)) := Path.iter_shift e (n - j)
    have e2 : j + (n - j) = n := by omega
    rw [e2, ht] at h1
    exact hmin _ (by omega) h1
  have hsz : n ≤ p.size := Path.card_le_size p p.pos n hv hinj
  refine ⟨hsz, fun fuel hf => ?_⟩
  have hend := Path.end_eq
  have h1 := nNodesBefore_loop_ok (by have := hw.1; omega) hv hmin ht (fuel - n - 1) n 0
    (by omega)
  have e : fuel - n - 1 + n + 1 = fuel := by omega
  rw [e] at h1
  exact h1

/-! ## The example path -/

theorem examplePath_wellFormed : WellFormed examplePath := by decide

theorem examplePath_lasso : Lasso examplePath 0 1 2 where
  one_le := by decide
  ne_end := by decide
  per := by decide
  inj := by
    intro i j hij hj
    have hj3 : j < 3 := hj
    interval_cases j <;> interval_cases i <;> decide

theorem examplePath_ne_end : ∀ k, examplePath.pos k ≠ Path.end :=
  examplePath_lasso.ne_end_all examplePath_wellFormed

/-! ## The claims -/

/-- C1: on a well-formed path, `findCycle` (given fuel for as many loop iterations as the
arena has nodes) returns the end sentinel if and only if the walk from the start reaches
the end sentinel, and `hasCycle` is true if and only if some node of the walk is visited
twice; `hasCycle` always returns. -/
theorem C1_findCycle_end_iff_walk_ends (p : Path) (hw : WellFormed p) (fuel : Nat)
    (hf : p.size ≤ fuel) :
    (findCycle fuel p = .ok Path.end ↔ ∃ k, p.pos k = Path.end) ∧
    (hasCycle fuel p = .ok true ↔
      ∃ i j, i < j ∧ p.pos i ≠ Path.end ∧ p.pos i = p.pos j) ∧
    (hasCycle fuel p = .ok true ∨ hasCycle fuel p = .ok false) := by
  by_cases hex : ∃ k, p.pos k = Path.end
  · have h1 := findCycle_of_end hw hex hf
    have h2 : hasCycle fuel p = .ok false := by
      rw [hasCycle, h1, Outcome.bind_ok]; simp
    refine ⟨⟨fun _ => hex, fun _ => h1⟩, ⟨fun h => ?_, ?_⟩, Or.inr h2⟩
    · rw [h2] at h; exact absurd h (by simp)
    · rintro ⟨i, j, hij, hne, e⟩
      obtain ⟨k, hk⟩ := hex
      exact absurd (Path.no_repeat_of_end hw hk hij e) hne
  · have hne : ∀ k, p.pos k ≠ Path.end := fun k hk => hex ⟨k, hk⟩
    obtain ⟨m, l, hl⟩ := Path.exists_lasso hw hw.2.1 hne
    have h1 := findCycle_of_lasso hw hl hf
    have h2 : hasCycle fuel p = .ok true := by
      rw [hasCycle, h1, Outcome.bind_ok]; simpa using hne m
    refine ⟨⟨fun h => ?_, fun h => absurd h hex⟩, ⟨fun _ => ?_, fun _ => h2⟩, Or.inl h2⟩
    · rw [h1] at h
      exact absurd (Outcome.ok.inj h) (hne m)
    · exact ⟨m, m + l, by have := hl.one_le; omega, hne m, hl.per.symm⟩

/-- C2: on a well-formed path whose walk never reaches the end sentinel, `findCycle`
returns the node at position `m` of the walk, where `m` is the least position whose node
is visited again later. -/
theorem C2_findCycle_first_revisited (p : Path) (hw : WellFormed p)
    (hne : ∀ k, p.pos k ≠ Path.end) (fuel : Nat) (hf : p.size ≤ fuel) :
    ∃ m, (∃ j, m < j ∧ p.pos m = p.pos j) ∧
      (∀ k, k < m → ∀ j, k < j → p.pos k ≠ p.pos j) ∧
      findCycle fuel p = .ok (p.pos m) := by
  obtain ⟨m, l, hl⟩ := Path.exists_lasso hw hw.2.1 hne
  exact ⟨m, hl.first_revisited.1, hl.first_revisited.2, findCycle_of_lasso hw hl hf⟩

/-- C7: on a well-formed path, `findCycle` with fuel for as many loop iterations as the
arena has nodes returns a value (the end sentinel or a node): no assertion fails and no
loop runs out of fuel.  If phase 1 hands a witness to `startOfCycleContaining`, the
witness is a node lying on a cycle, and `nNodesInCycle`, `nextNodeIndex` and the lockstep
loop all return. -/
theorem C7_findCycle_returns (p : Path) (hw : WellFormed p) (fuel : Nat)
    (hf : p.size ≤ fuel) :
    (∃ v, findCycle fuel p = .ok v ∧ (v = Path.end ∨ v < p.size)) ∧
    (p.start ≠ Path.end →
      ∃ r n, findCycle.trace p fuel p.start p.start = .ok (r, n) ∧
        ∀ w, r = .fastMetSlow w →
          w < p.size ∧ (∃ k, 1 ≤ k ∧ p.iter w k = w) ∧
          ∃ c i2 v, nNodesInCycle fuel p w = .ok c ∧
            nextNodeIndex p p.start c = .ok i2 ∧
            startOfCycleContaining.loop p fuel p.start i2 = .ok v) := by
  by_cases hex : ∃ k, p.pos k = Path.end
  · refine ⟨⟨Path.end, findCycle_of_end hw hex hf, Or.inl rfl⟩, fun hs => ?_⟩
    obtain ⟨T, hT, ht⟩ := findCycle.trace_of_end hw hs hex
    exact ⟨_, _, ht fuel (by omega), fun w hw1 => by cases hw1⟩
  · have hne : ∀ k, p.pos k ≠ Path.end := fun k hk => hex ⟨k, hk⟩
    obtain ⟨m, l, hl⟩ := Path.exists_lasso hw hw.2.1 hne
    have hsz := hl.le_size hw hw.2.1
    have hv : ∀ k, p.pos k < p.size := fun k => hl.lt_size hw hw.2.1 k
    refine ⟨⟨p.pos m, findCycle_of_lasso hw hl hf, Or.inr (hv m)⟩, fun _ => ?_⟩
    obtain ⟨T, hT, _, hx, ht⟩ := findCycle.trace_of_lasso hw hl
    refine ⟨_, _, ht fuel (by omega), fun w hw1 => ?_⟩
    rcases hx with ⟨hx, hm⟩ | ⟨hx, _⟩
    · rw [hx] at hw1
      cases hw1
      have hc := hl.on_cycle hw hm
      refine ⟨hv T, ⟨l, hl.one_le, by simpa using hc.per⟩, l, p.pos l, p.pos m,
        nNodesInCycle_lasso hw hc (hv T) (by omega),
        nextNodeIndex_ok l p._start (fun i _ => hv i), ?_⟩
      have h3 := startOfCycleContaining_loop_ok hw hl (fuel - m - 1) m 0 (by omega)
      have e : fuel - m - 1 + m + 1 = fuel := by have := hl.one_le; omega
      rw [e, Nat.zero_add] at h3
      exact h3
    · rw [hx] at hw1
      cases hw1

/-- What `findCycle` returns on the path with `b` nodes before a cycle of `c` nodes. -/
theorem Shape.findCycle_eq {p : Path} {b c : Nat} (h : Shape p b c) (hbc : b + c < Path.end)
    {fuel : Nat} (hf : b + c ≤ fuel) :
    findCycle fuel p = .ok (if c = 0 then Path.end else b) := by
  have hw := h.wellFormed hbc
  have hf1 : p.size ≤ fuel := by rw [h.size_eq]; exact hf
  by_cases hc : c = 0
  · rw [if_pos hc]
    exact findCycle_of_end hw ⟨b + c, by rw [h.pos_last, if_pos hc]⟩ hf1
  · rw [if_neg hc, findCycle_of_lasso hw (h.lasso hbc (by omega)) hf1, h.pos_lt b (by omega)]

/-- C3: for `b + c` below the sentinel value, `findCycle (createPath b c)` is the end
sentinel if and only if `c = 0`; in particular `hasCycle (createPath n 0)` is false. -/
theorem C3_createPath_findCycle_end_iff (b c : Nat) (hbc : b + c < Path.end) (fuel : Nat)
    (hf : b + c ≤ fuel) :
    ∃ p v, createPath b c = .ok p ∧ findCycle fuel p = .ok v ∧
      (v = Path.end ↔ c = 0) ∧ (c = 0 → hasCycle fuel p = .ok false) := by
  obtain ⟨p, hp, hs⟩ := createPath_shape hbc
  have h1 := hs.findCycle_eq hbc hf
  refine ⟨p, _, hp, h1, ?_, fun hc => ?_⟩
  · by_cases hc : c = 0
    · simp [hc]
    · rw [if_neg hc]
      exact ⟨fun h => absurd h (by omega), fun h => absurd h hc⟩
  · rw [hasCycle, h1, if_pos hc, Outcome.bind_ok]; simp

/-- C4: for `b + c` below the sentinel value and `p = createPath b c`,
`nNodesBefore p (findCycle p)` returns `b` (also when `c = 0`). -/
theorem C4_createPath_nNodesBefore (b c : Nat) (hbc : b + c < Path.end) (fuel : Nat)
    (hf : b + c < fuel) :
    ∃ p v, createPath b c = .ok p ∧ findCycle fuel p = .ok v ∧
      nNodesBefore fuel p v = .ok b := by
  obtain ⟨p, hp, hs⟩ := createPath_shape hbc
  have hw := hs.wellFormed hbc
  refine ⟨p, _, hp, hs.findCycle_eq hbc (Nat.le_of_lt hf), ?_⟩
  have hlt : ∀ j, j < b → p.pos j = j := fun j hj => hs.pos_lt j (by omega)
  by_cases hc : c = 0
  · have hb : p.pos b = Path.end := by
      have := hs.pos_last
      rwa [if_pos hc, hc, Nat.add_zero] at this
    rw [if_pos hc]
    exact (nNodesBefore_ok hw hb (fun j hj => by rw [hlt j hj]; omega)).2 fuel (by omega)
  · rw [if_neg hc]
    exact (nNodesBefore_ok hw (hs.pos_lt b (by omega))
      (fun j hj => by rw [hlt j hj]; omega)).2 fuel (by omega)

/-- C5: for `b + c` below the sentinel value and `p = createPath b c`,
`nNodesInCycle p (findCycle p)` returns `c` (also when `c = 0`). -/
theorem C5_createPath_nNodesInCycle (b c : Nat) (hbc : b + c < Path.end) (fuel : Nat)
    (hf : b + c ≤ fuel) :
    ∃ p v, createPath b c = .ok p ∧ findCycle fuel p = .ok v ∧
      nNodesInCycle fuel p v = .ok c := by
  obtain ⟨p, hp, hs⟩ := createPath_shape hbc
  have hw := hs.wellFormed hbc
  refine ⟨p, _, hp, hs.findCycle_eq hbc hf, ?_⟩
  by_cases hc : c = 0
  · rw [if_pos hc, hc]; rfl
  · rw [if_neg hc]
    have hl := hs.lasso hbc (by omega)
    have h1 := nNodesInCycle_lasso hw (hl.on_cycle hw (Nat.le_refl b))
      (hl.lt_size hw hw.2.1 b) (by omega : c ≤ fuel)
    have e : p.iter p._start b = b := hs.pos_lt b (by omega)
    rw [e] at h1
    exact h1

/-- C6: for `c ≥ 1` (and `b + c` below the sentinel value) and `p = createPath b c`,
`findCycle p` is the node reached from the start by exactly `b` links, which is the node
of index `b`; for `b = 0` it is the start and for `b = 1` it is the successor of the
start. -/
theorem C6_createPath_findCycle_node (b c : Nat) (hc : 1 ≤ c) (hbc : b + c < Path.end)
    (fuel : Nat) (hf : b + c ≤ fuel) :
    ∃ p v, createPath b c = .ok p ∧ findCycle fuel p = .ok v ∧
      nextNodeIndex p p.start b = .ok v ∧ v = b ∧
      (b = 0 → v = p.start) ∧ (b = 1 → p.next p.start = .ok v) := by
  obtain ⟨p, hp, hs⟩ := createPath_shape hbc
  have hw := hs.wellFormed hbc
  have hl := hs.lasso hbc hc
  have h1 := hs.findCycle_eq hbc hf
  rw [if_neg (by omega)] at h1
  have h2 : nextNodeIndex p p.start b = .ok b := by
    have := nextNodeIndex_ok b p._start (fun i _ => hl.lt_size hw hw.2.1 i)
    rw [show p.iter p._start b = b from hs.pos_lt b (by omega)] at this
    exact this
  refine ⟨p, b, hp, h1, h2, rfl, fun hb => ?_, fun hb => ?_⟩
  · subst hb
    exact (Outcome.ok.inj h2).symm
  · subst hb
    rw [nextNodeIndex] at h2
    cases hn : p.next p.start with
    | ok n1 => rw [hn, Outcome.bind_ok] at h2; exact h2
    | assertFail => rw [hn] at h2; exact absurd h2 (by simp)
    | outOfFuel => rw [hn] at h2; exact absurd h2 (by simp)

/-- C8: `nNodesInCycle` returns `0` on the end sentinel (on every path); on a well-formed
path and a valid node `x` that comes back to itself after some `k ≥ 1` links, it returns
the least such `k`, which is at most the number of nodes, as soon as the fuel allows `k`
iterations. -/
theorem C8_nNodesInCycle_least_period (p : Path) (hw : WellFormed p) (x : Nat)
    (hx : x < p.size) (hex : ∃ k, 1 ≤ k ∧ p.iter x k = x) (extra : Nat) :
    (∀ (q : Path) (fuel : Nat), nNodesInCycle fuel q Path.end = .ok 0) ∧
    ∃ k, 1 ≤ k ∧ p.iter x k = x ∧ (∀ j, 1 ≤ j → j < k → p.iter x j ≠ x) ∧
      k ≤ p.size ∧ nNodesInCycle (k + extra) p x = .ok k := by
  classical
  refine ⟨fun _ _ => rfl, ?_⟩
  have hk := Nat.find_spec hex
  have hmin : ∀ j, 1 ≤ j → j < Nat.find hex → p.iter x j ≠ x :=
    fun j hj hlt e => Nat.find_min hex hlt ⟨hj, e⟩
  have hl := Lasso.of_cycle hw hx hk.1 hk.2 hmin
  exact ⟨Nat.find hex, hk.1, hk.2, hmin, by simpa using hl.le_size hw (Or.inr hx),
    nNodesInCycle_lasso hw hl hx (Nat.le_add_right _ _)⟩

/-- C9: on a well-formed path and for a target `t` reachable from the start,
`nNodesBefore p t` returns the least `n` such that `n` links lead from the start to `t`
(`0` when `t` is the start), as soon as the fuel allows `n + 1` loop tests; `n` is at most
the number of nodes. -/
theorem C9_nNodesBefore_least (p : Path) (hw : WellFormed p) (t : Nat)
    (hr : ∃ n, p.pos n = t) (extra : Nat) :
    ∃ n, p.pos n = t ∧ (∀ j, j < n → p.pos j ≠ t) ∧ (t = p.start → n = 0) ∧ n ≤ p.size ∧
      nNodesBefore (n + 1 + extra) p t = .ok n := by
  classical
  have hn := Nat.find_spec hr
  have hmin : ∀ j, j < Nat.find hr → p.pos j ≠ t := fun j hj => Nat.find_min hr hj
  have h1 := nNodesBefore_ok hw hn hmin
  refine ⟨Nat.find hr, hn, hmin, fun ht => ?_, h1.1, h1.2 _ (by omega)⟩
  by_contra h0
  exact hmin 0 (Nat.pos_of_ne_zero h0) ht.symm

/-- C10: on a well-formed path, `nextNodeIndex p n k` returns the node reached from `n`
by exactly `k` links when the first `k` visited positions are valid nodes (not the end
sentinel), and fails an assertion otherwise; zero steps return `n`; and `a + b` steps are
`a` steps followed by `b` steps. -/
theorem C10_nextNodeIndex (p : Path) (hw : WellFormed p) (n k : Nat) :
    ((∀ i, i < k → p.iter n i ≠ Path.end ∧ p.iter n i < p.size) →
      nextNodeIndex p n k = .ok (p.iter n k)) ∧
    (¬ (∀ i, i < k → p.iter n i ≠ Path.end ∧ p.iter n i < p.size) →
      nextNodeIndex p n k = .assertFail) ∧
    nextNodeIndex p n 0 = .ok n ∧
    ∀ a b, nextNodeIndex p n (a + b) =
      (nextNodeIndex p n a).bind fun u => nextNodeIndex p u b := by
  refine ⟨fun h => nextNodeIndex_ok k n (fun i hi => (h i hi).2), fun h => ?_, rfl,
    fun a b => nextNodeIndex_add a n b⟩
  apply nextNodeIndex_fail k n
  intro hall
  exact h (fun i hi => ⟨Path.lt_ne_end hw (hall i hi), hall i hi⟩)

/-! ## The claims on concrete paths -/

theorem C1_witness :
    WellFormed examplePath ∧ examplePath.size ≤ 4 ∧
    ((findCycle 4 examplePath = .ok Path.end ↔ ∃ k, examplePath.pos k = Path.end) ∧
      (hasCycle 4 examplePath = .ok true ↔
        ∃ i j, i < j ∧ examplePath.pos i ≠ Path.end ∧ examplePath.pos i = examplePath.pos j) ∧
      (hasCycle 4 examplePath = .ok true ∨ hasCycle 4 examplePath = .ok false)) :=
  ⟨by decide, by decide, C1_findCycle_end_iff_walk_ends examplePath (by decide) 4 (by decide)⟩

theorem C2_witness :
    WellFormed examplePath ∧ (∀ k, examplePath.pos k ≠ Path.end) ∧ examplePath.size ≤ 4 ∧
    ∃ m, (∃ j, m < j ∧ examplePath.pos m = examplePath.pos j) ∧
      (∀ k, k < m → ∀ j, k < j → examplePath.pos k ≠ examplePath.pos j) ∧
      findCycle 4 examplePath = .ok (examplePath.pos m) :=
  ⟨by decide, examplePath_ne_end, by decide,
    C2_findCycle_first_revisited examplePath (by decide) examplePath_ne_end 4 (by decide)⟩

theorem C3_witness :
    2 + 3 < Path.end ∧ 2 + 3 ≤ 5 ∧
    ∃ p v, createPath 2 3 = .ok p ∧ findCycle 5 p = .ok v ∧
      (v = Path.end ↔ 3 = 0) ∧ (3 = 0 → hasCycle 5 p = .ok false) :=
  ⟨by decide, by decide, C3_createPath_findCycle_end_iff 2 3 (by decide) 5 (by decide)⟩

theorem C4_witness :
    2 + 3 < Path.end ∧ 2 + 3 < 6 ∧
    ∃ p v, createPath 2 3 = .ok p ∧ findCycle 6 p = .ok v ∧ nNodesBefore 6 p v = .ok 2 :=
  ⟨by decide, by decide, C4_createPath_nNodesBefore 2 3 (by decide) 6 (by decide)⟩

theorem C5_witness :
    2 + 3 < Path.end ∧ 2 + 3 ≤ 5 ∧
    ∃ p v, createPath 2 3 = .ok p ∧ findCycle 5 p = .ok v ∧ nNodesInCycle 5 p v = .ok 3 :=
  ⟨by decide, by decide, C5_createPath_nNodesInCycle 2 3 (by decide) 5 (by decide)⟩

theorem C6_witness :
    1 ≤ 3 ∧ 2 + 3 < Path.end ∧ 2 + 3 ≤ 5 ∧
    ∃ p v, createPath 2 3 = .ok p ∧ findCycle 5 p = .ok v ∧
      nextNodeIndex p p.start 2 = .ok v ∧ v = 2 ∧
      (2 = 0 → v = p.start) ∧ (2 = 1 → p.next p.start = .ok v) :=
  ⟨by decide, by decide, by decide,
    C6_createPath_findCycle_node 2 3 (by decide) (by decide) 5 (by decide)⟩

theorem C7_witness :
    WellFormed examplePath ∧ examplePath.size ≤ 4 ∧
    (∃ v, findCycle 4 examplePath = .ok v ∧ (v = Path.end ∨ v < examplePath.size)) ∧
    ∃ r n, findCycle.trace examplePath 4 examplePath.start examplePath.start = .ok (r, n) ∧
      ∀ w, r = .fastMetSlow w →
        w < examplePath.size ∧ (∃ k, 1 ≤ k ∧ examplePath.iter w k = w) ∧
        ∃ c i2 v, nNodesInCycle 4 examplePath w = .ok c ∧
          nextNodeIndex examplePath examplePath.start c = .ok i2 ∧
          startOfCycleContaining.loop examplePath 4 examplePath.start i2 = .ok v :=
  ⟨by decide, by decide,
    (C7_findCycle_returns examplePath (by decide) 4 (by decide)).1,
    (C7_findCycle_returns examplePath (by decide) 4 (by decide)).2 (by decide)⟩

theorem C8_witness :
    WellFormed examplePath ∧ 1 < examplePath.size ∧
    (∃ k, 1 ≤ k ∧ examplePath.iter 1 k = 1) ∧
    (∀ (q : Path) (fuel : Nat), nNodesInCycle fuel q Path.end = .ok 0) ∧
    ∃ k, 1 ≤ k ∧ examplePath.iter 1 k = 1 ∧
      (∀ j, 1 ≤ j → j < k → examplePath.iter 1 j ≠ 1) ∧
      k ≤ examplePath.size ∧ nNodesInCycle (k + 0) examplePath 1 = .ok k :=
  ⟨by decide, by decide, ⟨2, by decide, by decide⟩,
    C8_nNodesInCycle_least_period examplePath (by decide) 1 (by decide)
      ⟨2, by decide, by decide⟩ 0⟩

theorem C9_witness :
    WellFormed examplePath ∧ (∃ n, examplePath.pos n = 2) ∧
    ∃ n, examplePath.pos n = 2 ∧ (∀ j, j < n → examplePath.pos j ≠ 2) ∧
      (2 = examplePath.start → n = 0) ∧ n ≤ examplePath.size ∧
      nNodesBefore (n + 1 + 0) examplePath 2 = .ok n :=
  ⟨by decide, ⟨2, by decide⟩,
    C9_nNodesBefore_least examplePath (by decide) 2 ⟨2, by decide⟩ 0⟩

theorem C10_witness :
    WellFormed examplePath ∧
    nextNodeIndex examplePath 0 3 = .ok (examplePath.iter 0 3) ∧
    nextNodeIndex examplePath 3 2 = .assertFail :=
  ⟨by decide,
    (C10_nextNodeIndex examplePath (by decide) 0 3).1 (by decide),
    (C10_nextNodeIndex examplePath (by decide) 3 2).2.1 (by decide)⟩

/-! ## The methods of `Path` -/

/-- The method `setNext` in closed form. -/
theorem Path.setNext_eq (p : Path) (a t : Nat) :
    p.setNext a t =
      if a = Path.end then
        if t < p.size then .ok { p with _start := t } else .assertFail
      else if (t = Path.end ∨ t < p.size) ∧ a < p.size then
        .ok { p with _nodes := p._nodes.set a { next := t } }
      else .assertFail := by
  unfold Path.setNext Path.checkMaybeNodeIndex Path.checkNodeIndex Path.size
  by_cases ha : a = Path.end
  · by_cases ht : t < p._nodes.length <;> simp [ha, ht]
  · by_cases hte : t = Path.end
    · by_cases hv : a < p._nodes.length <;> simp [ha, hte, hv]
    · by_cases ht : t < p._nodes.length
      · by_cases hv : a < p._nodes.length <;> simp [ha, hte, ht, hv]
      · simp [ha, hte, ht]

/-- The store-tracking version of `setNext` in closed form. -/
theorem Path.setNextStore_eq (p : Path) (a t : Nat) :
    p.setNextStore a t =
      if a = Path.end then
        if t < p.size then ({ p with _start := t }, .ok ()) else (p, .assertFail)
      else if (t = Path.end ∨ t < p.size) ∧ a < p.size then
        ({ p with _nodes := p._nodes.set a { next := t } }, .ok ())
      else (p, .assertFail) := by
  unfold Path.setNextStore Path.checkMaybeNodeIndex Path.checkNodeIndex Path.size
  by_cases ha : a = Path.end
  · by_cases ht : t < p._nodes.length <;> simp [ha, ht]
  · by_cases hte : t = Path.end
    · by_cases hv : a < p._nodes.length <;> simp [ha, hte, hv]
    · by_cases ht : t < p._nodes.length
      · by_cases hv : a < p._nodes.length <;> simp [ha, hte, ht, hv]
      · simp [ha, hte, ht]

theorem Path.next_addNode_new (p : Path) : p.addNode.2.next p.addNode.1 = .ok Path.end := by
  have h1 : p.addNode.1 < p.addNode.2.size := by
    rw [Path.size_addNode]; exact Nat.lt_succ_self _
  rw [Path.next_of_lt h1, Path.succ_addNode]
  exact congrArg Outcome.ok (Path.succ_of_ge (Nat.le_refl _))

theorem Path.next_addNode_old (p : Path) {i : Nat} (h : i < p.size) :
    p.addNode.2.next i = p.next i := by
  rw [Path.next_of_lt h, Path.next_of_lt (by rw [Path.size_addNode]; omega), Path.succ_addNode]

theorem Path.start_addNode_iterate (p : Path) (n : Nat) :
    ((fun q : Path => q.addNode.2)^[n] p)._start = p._start := by
  induction n with
  | zero => rfl
  | succ n ih => rw [Function.iterate_succ_apply']; exact ih

/-- C11: `addNode` (a total function: there is no failing case) returns the arena size
before the call, makes the arena one node larger, gives the new node the end sentinel as
its link, and leaves the start field and the link of every earlier node as they were; a
path on which only `addNode` was called is still empty. -/
theorem C11_addNode_appends (p : Path) (n : Nat) :
    p.addNode.1 = p.size ∧
    p.addNode.2.size = p.size + 1 ∧
    p.addNode.2.next p.addNode.1 = .ok Path.end ∧
    p.addNode.2.start = p.start ∧
    (∀ i, i < p.size → p.addNode.2.next i = p.next i) ∧
    isEmpty p.addNode.2 = isEmpty p ∧
    isEmpty ((fun q : Path => q.addNode.2)^[n] {}) = true := by
  refine ⟨rfl, Path.size_addNode p, Path.next_addNode_new p, rfl,
    fun i hi => Path.next_addNode_old p hi, rfl, ?_⟩
  unfold isEmpty Path.start
  rw [Path.start_addNode_iterate]
  rfl

/-- C12: on a path whose arena is no larger than the sentinel value (a `size_t` cannot
count more), for a valid node index `a` and a target `t` that is a valid node index or
the end sentinel, `setNext a t` returns, afterwards `next a` is `t`, and the arena size,
the start field and the link of every other node are as before. -/
theorem C12_setNext_sets_link (p : Path) (hsz : p.size ≤ Path.end) (a t : Nat)
    (ha : a < p.size) (ht : t < p.size ∨ t = Path.end) :
    ∃ q, p.setNext a t = .ok q ∧ q.next a = .ok t ∧ q.size = p.size ∧
      q.start = p.start ∧ ∀ x, x < p.size → x ≠ a → q.next x = p.next x := by
  have hae : a ≠ Path.end := by omega
  have hsize : ({ p with _nodes := p._nodes.set a { next := t } } : Path).size = p.size := by
    show (p._nodes.set a _).length = p._nodes.length
    rw [List.length_set]
  refine ⟨_, Path.setNext_node hae ha ht.symm, ?_, hsize, rfl, fun x hx hxa => ?_⟩
  · rw [Path.next_of_lt (by rw [hsize]; exact ha), Path.succ_set _ _ _ _ ha, if_pos rfl]
  · rw [Path.next_of_lt (by rw [hsize]; exact hx), Path.succ_set _ _ _ _ ha, if_neg hxa,
      Path.next_of_lt hx]

/-- C13, as amended: `setNext` with the start marker returns exactly for the targets that
are valid node indices, and then sets the start field to the target without changing any
node or the arena size; for every other target it fails its assertion, the end sentinel
included (the arena being no larger than the sentinel value), so the start field cannot
be set back to the end sentinel. -/
theorem C13_setNext_start_marker (p : Path) (t : Nat) :
    (t < p.size →
      ∃ q, p.setNext Path.end t = .ok q ∧ q.start = t ∧ q._nodes = p._nodes ∧
        q.size = p.size) ∧
    (p.size ≤ t → p.setNext Path.end t = .assertFail) ∧
    (p.size ≤ Path.end → p.setNext Path.end Path.end = .assertFail) := by
  refine ⟨fun ht => ⟨_, Path.setNext_start ht, rfl, rfl, rfl⟩, fun ht => ?_, fun hsz => ?_⟩
  · rw [Path.setNext_eq, if_pos rfl, if_neg (by omega)]
  · rw [Path.setNext_eq, if_pos rfl, if_neg (by omega)]

/-- C13 fails as stated: the end sentinel is an admitted target, but on the example path
`setNext` with the start marker and the end sentinel fails its assertion instead of
making the path empty again. -/
theorem C13_counterexample :
    (Path.end < examplePath.size ∨ Path.end = Path.end) ∧
    examplePath.setNext Path.end Path.end = .assertFail ∧
    ¬ ∃ q, examplePath.setNext Path.end Path.end = .ok q := by
  have h : examplePath.setNext Path.end Path.end = .assertFail := by decide
  refine ⟨Or.inr rfl, h, ?_⟩
  rintro ⟨q, hq⟩
  rw [h] at hq
  cases hq

/-- C14: `next i` fails its assertion exactly when `i` is not below the arena size (so
`next` of the end sentinel fails, the arena being no larger than the sentinel value);
`setNext a t` with `a` different from the start marker fails its assertion exactly when
`a` is not below the arena size or `t` is neither the end sentinel nor below the arena
size; and a failing `setNext` leaves the store as it was (`next` does not write to it). -/
theorem C14_assertion_failures (p : Path) (i a t : Nat) :
    (p.next i = .assertFail ↔ p.size ≤ i) ∧
    (p.size ≤ Path.end → p.next Path.end = .assertFail) ∧
    (a ≠ Path.end →
      (p.setNext a t = .assertFail ↔ p.size ≤ a ∨ (t ≠ Path.end ∧ p.size ≤ t))) ∧
    (p.setNext a t = .assertFail ↔ (p.setNextStore a t).2 = .assertFail) ∧
    (∀ q, p.setNext a t = .ok q ↔ p.setNextStore a t = (q, .ok ())) ∧
    ((p.setNextStore a t).2 = .assertFail → (p.setNextStore a t).1 = p) := by
  refine ⟨?_, fun h => Path.next_of_ge h, fun ha => ?_, ?_, fun q => ?_, ?_⟩
  · by_cases h : i < p.size
    · rw [Path.next_of_lt h]
      exact ⟨fun e => (by cases e), fun e => absurd h (by omega)⟩
    · exact ⟨fun _ => by omega, fun _ => Path.next_of_ge (by omega)⟩
  · rw [Path.setNext_eq, if_neg ha]
    by_cases c : (t = Path.end ∨ t < p.size) ∧ a < p.size
    · rw [if_pos c]
      refine ⟨fun e => (by cases e), fun e => ?_⟩
      rcases c with ⟨c1 | c1, c2⟩ <;> rcases e with e | ⟨e1, e2⟩ <;> omega
    · rw [if_neg c]
      refine ⟨fun _ => ?_, fun _ => rfl⟩
      by_contra hn
      apply c
      by_cases hte : t = Path.end
      · exact ⟨Or.inl hte, by omega⟩
      · exact ⟨Or.inr (by by_contra h1; exact hn (Or.inr ⟨hte, by omega⟩)), by omega⟩
  · rw [Path.setNext_eq, Path.setNextStore_eq]
    split_ifs <;> simp
  · rw [Path.setNext_eq, Path.setNextStore_eq]
    split_ifs <;> simp [eq_comm]
  · rw [Path.setNextStore_eq]
    split_ifs <;> simp

theorem Path.LinksValid.of_addNode {p : Path} (h : p.LinksValid) : p.addNode.2.LinksValid := by
  have hs := Path.size_addNode p
  refine ⟨?_, fun nd hnd => ?_⟩
  · rcases h.1 with h1 | h1
    · exact Or.inl h1
    · right
      show p._start < p.addNode.2.size
      omega
  · have hnd1 : nd ∈ p._nodes ++ [({} : Node)] := hnd
    rcases List.mem_append.mp hnd1 with h1 | h1
    · rcases h.2 nd h1 with h2 | h2
      · exact Or.inl h2
      · right; omega
    · rw [List.mem_singleton.mp h1]
      exact Or.inl rfl

theorem Path.LinksValid.of_setNext {p q : Path} (h : p.LinksValid) {a t : Nat}
    (hq : p.setNext a t = .ok q) : q.LinksValid ∧ q.size = p.size := by
  rw [Path.setNext_eq] at hq
  by_cases ha : a = Path.end
  · rw [if_pos ha] at hq
    by_cases ht : t < p.size
    · rw [if_pos ht] at hq
      cases hq
      exact ⟨⟨Or.inr ht, h.2⟩, rfl⟩
    · rw [if_neg ht] at hq
      cases hq
  · rw [if_neg ha] at hq
    by_cases c : (t = Path.end ∨ t < p.size) ∧ a < p.size
    · rw [if_pos c] at hq
      cases hq
      have hsize : ({ p with _nodes := p._nodes.set a { next := t } } : Path).size = p.size := by
        show (p._nodes.set a _).length = p._nodes.length
        rw [List.length_set]
      refine ⟨⟨?_, fun nd hnd => ?_⟩, hsize⟩
      · rw [hsize]; exact h.1
      · rw [hsize]
        rcases List.mem_or_eq_of_mem_set hnd with h1 | h1
        · exact h.2 nd h1
        · rw [h1]; exact c.1
    · rw [if_neg c] at hq
      cases hq

theorem Path.LinksValid.of_calls : ∀ (cs : List Call) {p q : Path}, p.LinksValid →
    p.calls cs = .ok q → q.LinksValid ∧ p.size ≤ q.size
  | [], p, q, h, hq => by
    cases hq
    exact ⟨h, Nat.le_refl _⟩
  | c :: cs, p, q, h, hq => by
    rw [Path.calls] at hq
    cases c with
    | addNode =>
      rw [Path.call, Outcome.bind_ok] at hq
      have h1 := Path.LinksValid.of_calls cs h.of_addNode hq
      have h2 := Path.size_addNode p
      exact ⟨h1.1, by omega⟩
    | setNext a t =>
      rw [Path.call] at hq
      cases hs : p.setNext a t with
      | ok p1 =>
        rw [hs, Outcome.bind_ok] at hq
        have h0 := h.of_setNext hs
        have h1 := Path.LinksValid.of_calls cs h0.1 hq
        exact ⟨h1.1, by omega⟩
      | assertFail => rw [hs] at hq; cases hq
      | outOfFuel => rw [hs] at hq; cases hq

/-- C15: the freshly constructed path is well-formed; `addNode` and every `setNext` that
returns keep the start field and all links in range (the sentinel or a valid index), and
`setNext` keeps the arena size; so every path reached from a path with links in range,
in particular from the fresh path, by any sequence of calls has its links in range, and
as long as its arena size is below the sentinel value it is well-formed and the end
sentinel is not a valid index of it. -/
theorem C15_wellFormed_invariant (p : Path) (hp : p.LinksValid) (cs : List Call) :
    WellFormed {} ∧
    p.addNode.2.LinksValid ∧
    (∀ a t q, p.setNext a t = .ok q → q.LinksValid ∧ q.size = p.size) ∧
    (∀ q, p.calls cs = .ok q →
      q.LinksValid ∧ (q.size < Path.end → WellFormed q ∧ ¬ q.Valid Path.end)) ∧
    (∀ q, Path.calls {} cs = .ok q →
      q.LinksValid ∧ (q.size < Path.end → WellFormed q ∧ ¬ q.Valid Path.end)) := by
  have h0 : Path.LinksValid {} := ⟨Or.inl rfl, fun nd hnd => absurd hnd (List.not_mem_nil nd)⟩
  have key : ∀ (r q : Path), r.LinksValid → r.calls cs = .ok q →
      q.LinksValid ∧ (q.size < Path.end → WellFormed q ∧ ¬ q.Valid Path.end) := by
    intro r q hr hq
    have h1 := (Path.LinksValid.of_calls cs hr hq).1
    exact ⟨h1, fun hsz => ⟨⟨hsz, h1⟩, fun hv => Nat.lt_asymm hsz hv⟩⟩
  exact ⟨by decide, hp.of_addNode, fun a t q hq => hp.of_setNext hq, fun q hq => key p q hp hq,
    fun q hq => key {} q h0 hq⟩

/-! ## `nNodesInCycle` on a node that is not on a cycle -/

/-- From a node that never comes back to itself, the loop of `nNodesInCycle` does not
return a count, whatever the fuel. -/
theorem nNodesInCycle_loop_never_ok {p : Path} {x : Nat}
    (hnc : ∀ k, 1 ≤ k → p.iter x k ≠ x) :
    ∀ (fuel j n c : Nat), nNodesInCycle.loop p x fuel (p.iter x j) n ≠ .ok c
  | 0, _, _, _ => fun h => by cases h
  | fuel + 1, j, n, c => by
    rw [nNodesInCycle.loop]
    by_cases he : p.iter x j = Path.end
    · rw [if_pos he]; exact fun h => by cases h
    rw [if_neg he]
    by_cases hv : p.iter x j < p.size
    · rw [Path.next_of_lt hv, Outcome.bind_ok, ← Path.iter_succ,
        if_neg (hnc (j + 1) (Nat.succ_pos j))]
      exact nNodesInCycle_loop_never_ok hnc fuel (j + 1) _ c
    · rw [Path.next_of_ge (Nat.not_lt.mp hv)]
      exact fun h => by cases h

/-- From a node whose walk runs off the path after `e` links, the loop of `nNodesInCycle`
fails the assertion `i != p.end()` in its iteration number `e`. -/
theorem nNodesInCycle_loop_asserts {p : Path} (hw : WellFormed p) {x e : Nat}
    (hx : x < p.size) (he : p.iter x e = Path.end)
    (hmin : ∀ k, k < e → p.iter x k ≠ Path.end) (fuel : Nat) :
    ∀ (d j n : Nat), j + d = e →
      nNodesInCycle.loop p x (fuel + d + 1) (p.iter x j) n = .assertFail := by
  intro d
  induction d with
  | zero =>
    intro j n hj
    have e1 : j = e := by omega
    rw [nNodesInCycle.loop, e1, if_pos he]
  | succ d ih =>
    intro j n hj
    have h1 : p.iter x j ≠ Path.end := hmin j (by omega)
    have hv : p.iter x j < p.size := Path.iter_lt_of_ne_end hw (Or.inr hx) h1
    have h2 : p.iter x (j + 1) ≠ x := by
      intro e2
      have h3 : p.iter x 0 = p.iter x (j + 1) := e2.symm
      exact Path.lt_ne_end hw hx (Path.no_repeat_of_end hw he (Nat.succ_pos j) h3)
    rw [nNodesInCycle.loop, if_neg h1, Path.next_of_lt hv, Outcome.bind_ok, ← Path.iter_succ,
      if_neg h2]
    exact ih (j + 1) _ (by omega)

theorem nNodesInCycle_asserts {p : Path} (hw : WellFormed p) {x : Nat} (hx : x < p.size)
    (hex : ∃ e, p.iter x e = Path.end) :
    ∃ e, e ≤ p.size ∧ ∀ fuel, e < fuel → nNodesInCycle fuel p x = .assertFail := by
  classical
  have he := Nat.find_spec hex
  have hmin : ∀ k, k < Nat.find hex → p.iter x k ≠ Path.end := fun k hk => Nat.find_min hex hk
  generalize Nat.find hex = e at he hmin
  have hsz : e ≤ p.size := Path.card_le_size p (p.iter x) e
    (fun k hk => Path.iter_lt_of_ne_end hw (Or.inr hx) (hmin k hk))
    (fun i j hij hj h => hmin i (by omega) (Path.no_repeat_of_end hw he hij h))
  refine ⟨e, hsz, fun fuel hf => ?_⟩
  have h1 := nNodesInCycle_loop_asserts hw hx he hmin (fuel - e - 1) e 0 0 (by omega)
  have e2 : fuel - e - 1 + e + 1 = fuel := by omega
  rw [e2] at h1
  rw [nNodesInCycle, if_neg (Path.lt_ne_end hw hx)]
  exact h1

/-- From a node that never comes back to itself and whose walk never runs off the path,
the loop of `nNodesInCycle` is never left. -/
theorem nNodesInCycle_loop_diverges {p : Path} (hw : WellFormed p) {x : Nat}
    (hx : x < p.size) (hnc : ∀ k, 1 ≤ k → p.iter x k ≠ x)
    (hne : ∀ k, p.iter x k ≠ Path.end) :
    ∀ (fuel j n : Nat), nNodesInCycle.loop p x fuel (p.iter x j) n = .outOfFuel
  | 0, _, _ => rfl
  | fuel + 1, j, n => by
    rw [nNodesInCycle.loop, if_neg (hne j),
      Path.next_of_lt (Path.iter_lt_of_ne_end hw (Or.inr hx) (hne j)), Outcome.bind_ok,
      ← Path.iter_succ, if_neg (hnc (j + 1) (Nat.succ_pos j))]
    exact nNodesInCycle_loop_diverges hw hx hnc hne fuel (j + 1) _

theorem nNodesInCycle_diverges {p : Path} (hw : WellFormed p) {x : Nat}
    (hx : x < p.size) (hnc : ∀ k, 1 ≤ k → p.iter x k ≠ x)
    (hne : ∀ k, p.iter x k ≠ Path.end) (fuel : Nat) :
    nNodesInCycle fuel p x = .outOfFuel := by
  rw [nNodesInCycle, if_neg (Path.lt_ne_end hw hx)]
  exact nNodesInCycle_loop_diverges hw hx hnc hne fuel 0 0

/-- C16, as amended: on a well-formed path and a valid node `x` that does not lie on a
cycle, `nNodesInCycle` never returns a count.  If the walk from `x` reaches the end
sentinel, it fails its assertion, within one more loop iteration than the arena has
nodes; if the walk from `x` never reaches the end sentinel (it runs into a cycle that
does not contain `x`), no fuel is enough: the loop is never left and no assertion
fails. -/
theorem C16_nNodesInCycle_off_cycle (p : Path) (hw : WellFormed p) (x : Nat)
    (hx : x < p.size) (hnc : ∀ k, 1 ≤ k → p.iter x k ≠ x) (fuel : Nat) :
    (∀ c, nNodesInCycle fuel p x ≠ .ok c) ∧
    ((∃ e, p.iter x e = Path.end) →
      ∃ e, e ≤ p.size ∧ ∀ fuel1, e < fuel1 → nNodesInCycle fuel1 p x = .assertFail) ∧
    ((∀ k, p.iter x k ≠ Path.end) → nNodesInCycle fuel p x = .outOfFuel) := by
  refine ⟨fun c => ?_, nNodesInCycle_asserts hw hx, fun hne =>
    nNodesInCycle_diverges hw hx hnc hne fuel⟩
  rw [nNodesInCycle, if_neg (Path.lt_ne_end hw hx)]
  exact nNodesInCycle_loop_never_ok hnc fuel 0 0 c

theorem examplePath_tail : ∀ k, 1 ≤ k → examplePath.iter 0 k ≠ 0 :=
  fun k hk e => examplePath_lasso.first_revisited.2 0 Nat.zero_lt_one k hk e.symm

/-- C16 fails as stated: node `0` of the example path is a valid node that is not on a
cycle, and `nNodesInCycle` on it fails no assertion: whatever the fuel, the loop is not
left. -/
theorem C16_counterexample :
    WellFormed examplePath ∧ 0 < examplePath.size ∧
    (∀ k, 1 ≤ k → examplePath.iter 0 k ≠ 0) ∧
    (∀ fuel, nNodesInCycle fuel examplePath 0 = .outOfFuel) ∧
    ∀ fuel, nNodesInCycle fuel examplePath 0 ≠ .assertFail := by
  have h : ∀ fuel, nNodesInCycle fuel examplePath 0 = .outOfFuel :=
    nNodesInCycle_diverges examplePath_wellFormed (by decide) examplePath_tail
      examplePath_ne_end
  exact ⟨by decide, by decide, examplePath_tail, h, fun fuel e => by rw [h fuel] at e; cases e⟩

/-! ## Counting the iterations of the loops -/

/-- The lockstep loop of `startOfCycleContaining` returns the node of its trace. -/
theorem startOfCycleContaining_loop_eq_trace (p : Path) : ∀ (fuel i1 i2 : Nat),
    startOfCycleContaining.loop p fuel i1 i2 =
      (startOfCycleContaining.trace p fuel i1 i2).bind fun r => .ok r.1
  | 0, _, _ => rfl
  | fuel + 1, i1, i2 => by
    rw [startOfCycleContaining.loop, startOfCycleContaining.trace]
    by_cases c : i1 = i2
    · rw [if_pos c, if_pos c]; rfl
    rw [if_neg c, if_neg c]
    cases p.next i1 with
    | assertFail => rfl
    | outOfFuel => rfl
    | ok j1 =>
      simp only [Outcome.bind_ok]
      cases p.next i2 with
      | assertFail => rfl
      | outOfFuel => rfl
      | ok j2 =>
        simp only [Outcome.bind_ok]
        rw [startOfCycleContaining_loop_eq_trace p fuel j1 j2, Outcome.bind_assoc]
        rfl

/-- On a lasso the lockstep loop, entered `d` positions before the cycle, runs its body
`d` times and ends on the first node of the cycle. -/
theorem startOfCycleContaining_trace_ok {p : Path} (hw : WellFormed p) {m l : Nat}
    (h : Lasso p p._start m l) (fuel : Nat) :
    ∀ (d j : Nat), j + d = m →
      startOfCycleContaining.trace p (fuel + d + 1) (p.pos j) (p.pos (j + l)) =
        .ok (p.pos m, d) := by
  have hv : ∀ k, p.pos k < p.size := fun k => h.lt_size hw hw.2.1 k
  intro d
  induction d with
  | zero =>
    intro j hj
    have e : j = m := by omega
    have e1 : p.pos m = p.pos (m + l) := h.per.symm
    rw [startOfCycleContaining.trace, e, if_pos e1]
  | succ d ih =>
    intro j hj
    have e1 : p.pos j ≠ p.pos (j + l) := h.inj j (j + l) (by have := h.one_le; omega) (by omega)
    rw [startOfCycleContaining.trace, if_neg e1, Path.next_of_lt (hv j),
      Path.next_of_lt (hv (j + l)), Outcome.bind_ok, Outcome.bind_ok, ← Path.pos_succ,
      ← Path.pos_succ]
    have e2 : j + l + 1 = j + 1 + l := by omega
    have h1 := ih (j + 1) (by omega)
    rw [e2, show fuel + (d + 1) = fuel + d + 1 from rfl, h1]
    rfl

theorem startOfCycleContaining_trace_of_lasso {p : Path} (hw : WellFormed p) {m l : Nat}
    (h : Lasso p p._start m l) {fuel : Nat} (hf : m < fuel) :
    startOfCycleContaining.trace p fuel p._start (p.pos l) = .ok (p.pos m, m) := by
  have h3 := startOfCycleContaining_trace_ok hw h (fuel - m - 1) m 0 (by omega)
  have e : fuel - m - 1 + m + 1 = fuel := by omega
  rw [e, Nat.zero_add] at h3
  exact h3

/-- The trace of the loop of `findCycle` for every fuel: the loop is left in the first
iteration with a successful test if the fuel reaches that far. -/
theorem findCycle.trace_cases {p : Path} (hw : WellFormed p) (hs : p._start ≠ Path.end)
    {T : Nat} (hq : ∀ s, s < T → p.NoExit s) (hT : ¬ p.NoExit T) (fuel : Nat) :
    findCycle.trace p fuel p._start p._start =
      if T + 1 ≤ fuel then .ok (p.exitAt T, T + 1) else .outOfFuel := by
  by_cases hf : T + 1 ≤ fuel
  · rw [if_pos hf]; exact findCycle.trace_exit hw hs hq hT hf
  · rw [if_neg hf]
    have h1 := findCycle.trace_skip hw hs fuel 0 (fun s hs1 => hq s (by omega))
    rw [Nat.zero_add] at h1
    rw [show p._start = p.pos 0 from rfl, h1]
    rfl

/-- The loop of `findCycle` cannot be entered on the empty path. -/
theorem findCycle.trace_start_end {p : Path} (hw : WellFormed p) (hs : p._start = Path.end)
    (fuel : Nat) (x : LoopExit × Nat) : findCycle.trace p fuel p._start p._start ≠ .ok x := by
  cases fuel with
  | zero => exact fun h => by cases h
  | succ fuel =>
    rw [findCycle.trace, hs, Path.next_of_ge (Nat.le_of_lt hw.1)]
    exact fun h => by cases h

/-- C17: on a well-formed path with `N` nodes, the loop of `findCycle` starts at most `N`
iterations before it is left (none on the empty path, where `findCycle` returns without
entering it); and if it hands a witness to `startOfCycleContaining`, the loop of
`nNodesInCycle` returns within `c ≤ N` iterations, `c` being the count it returns, the
loop of `nextNodeIndex` is run for that count `c`, and the body of the lockstep loop
runs at most `N` times. -/
theorem C17_linear_iterations (p : Path) (hw : WellFormed p) (fuel : Nat)
    (hf : p.size ≤ fuel) :
    (p.start = Path.end → findCycle 0 p = .ok Path.end) ∧
    (p.start ≠ Path.end →
      ∃ r n, findCycle.trace p fuel p.start p.start = .ok (r, n) ∧ n ≤ p.size ∧
        ∀ w, r = .fastMetSlow w →
          ∃ c v k, nNodesInCycle fuel p w = .ok c ∧ c ≤ p.size ∧
            nNodesInCycle c p w = .ok c ∧
            nextNodeIndex p p.start c = .ok (p.pos c) ∧
            startOfCycleContaining.trace p fuel p.start (p.pos c) = .ok (v, k) ∧
            k ≤ p.size) := by
  refine ⟨fun hs => ?_, fun hs => ?_⟩
  · rw [findCycle, if_pos hs, hs]
  by_cases hex : ∃ k, p.pos k = Path.end
  · obtain ⟨T, hT, ht⟩ := findCycle.trace_of_end hw hs hex
    exact ⟨_, _, ht fuel (by omega), hT, fun w hw1 => by cases hw1⟩
  · have hne : ∀ k, p.pos k ≠ Path.end := fun k hk => hex ⟨k, hk⟩
    obtain ⟨m, l, hl⟩ := Path.exists_lasso hw hw.2.1 hne
    have hsz := hl.le_size hw hw.2.1
    have hv : ∀ k, p.pos k < p.size := fun k => hl.lt_size hw hw.2.1 k
    have h1 := hl.one_le
    obtain ⟨T, hT, _, hx, ht⟩ := findCycle.trace_of_lasso hw hl
    refine ⟨_, _, ht fuel (by omega), by omega, fun w hw1 => ?_⟩
    rcases hx with ⟨hx, hm⟩ | ⟨hx, _⟩
    · rw [hx] at hw1
      cases hw1
      have hc := hl.on_cycle hw hm
      exact ⟨l, p.pos m, m, nNodesInCycle_lasso hw hc (hv T) (by omega), by omega,
        nNodesInCycle_lasso hw hc (hv T) (Nat.le_refl l),
        nextNodeIndex_ok l p._start (fun i _ => hv i),
        startOfCycleContaining_trace_of_lasso hw hl (by omega), by omega⟩
    · rw [hx] at hw1
      cases hw1

/-- C18: on a well-formed path, whenever the loop of `findCycle` is left by its third
test (the slow pointer, just advanced, equals the fast pointer), the node `w` that
`findCycle` then returns is the one `startOfCycleContaining` returns for `w`: the first
node of the cycle, at the least position `m` of the walk whose node is visited again;
and `m ≥ 1`, the start is never visited again. -/
theorem C18_third_check_returns_cycle_start (p : Path) (hw : WellFormed p)
    (fuel n w : Nat) (h : findCycle.trace p fuel p.start p.start = .ok (.slowMetFast w, n))
    (fuel2 : Nat) (hf : p.size ≤ fuel2) :
    findCycle.loop p fuel2 fuel p.start p.start = .ok w ∧
    startOfCycleContaining fuel2 p w = .ok w ∧
    (∀ k, 1 ≤ k → p.pos k ≠ p.start) ∧
    ∃ m, 1 ≤ m ∧ w = p.pos m ∧ n = m ∧ (∃ j, m < j ∧ p.pos m = p.pos j) ∧
      ∀ k, k < m → ∀ j, k < j → p.pos k ≠ p.pos j := by
  have hs : p._start ≠ Path.end := fun hs => findCycle.trace_start_end hw hs fuel _ h
  have hloop : findCycle.loop p fuel2 fuel p.start p.start = .ok w := by
    rw [findCycle.loop_eq_trace, h]; rfl
  by_cases hex : ∃ k, p.pos k = Path.end
  · exfalso
    obtain ⟨T, _, ht⟩ := findCycle.trace_of_end hw hs hex
    by_cases hf1 : T + 1 ≤ fuel
    · have h1 := ht fuel hf1
      rw [show p.start = p._start from rfl, h1] at h
      cases h
    · have hq : ∀ s, s < fuel → p.NoExit s := by
        intro s hs1
        by_contra hne
        classical
        have hex1 : ∃ s, ¬ p.NoExit s := ⟨s, hne⟩
        have h1 := findCycle.trace_cases hw hs
          (fun s1 hs2 => not_not.mp (Nat.find_min hex1 hs2)) (Nat.find_spec hex1)
        have hle : Nat.find hex1 ≤ s := Nat.find_min' hex1 hne
        have h2 := h1 (T + 1 + fuel)
        rw [if_pos (by omega), ht _ (by omega)] at h2
        have h3 := h1 fuel
        rw [if_pos (by omega), ← (Prod.mk.inj (Outcome.ok.inj h2)).1] at h3
        rw [show p.start = p._start from rfl, h3] at h
        cases h
      have h1 := findCycle.trace_skip hw hs fuel 0 hq
      rw [Nat.zero_add] at h1
      rw [show p.start = p.pos 0 from rfl, h1] at h
      cases h
  · have hne : ∀ k, p.pos k ≠ Path.end := fun k hk => hex ⟨k, hk⟩
    obtain ⟨m, l, hl⟩ := Path.exists_lasso hw hw.2.1 hne
    have hsz := hl.le_size hw hw.2.1
    obtain ⟨T, hT, hq, hx, ht⟩ := findCycle.trace_of_lasso hw hl
    have hT1 : ¬ p.NoExit T := by
      intro hno
      have h1 := findCycle.trace_skip hw hs (T + 1) 0 (fun s hs1 => by
        rcases Nat.lt_succ_iff_lt_or_eq.mp hs1 with h2 | h2
        · exact hq s h2
        · rw [h2]; exact hno)
      rw [Nat.zero_add] at h1
      have h2 := ht (T + 1) (Nat.le_refl _)
      rw [show p._start = p.pos 0 from rfl, h1] at h2
      cases h2
    have h1 := findCycle.trace_cases hw hs hq hT1 fuel
    rw [show p.start = p._start from rfl, h1] at h
    by_cases hf1 : T + 1 ≤ fuel
    · rw [if_pos hf1] at h
      have h2 := Prod.mk.inj (Outcome.ok.inj h)
      rcases hx with ⟨hx, _⟩ | ⟨hx, hm⟩
      · rw [hx] at h2; cases h2.1
      · rw [hx] at h2
        have hwm : p.pos m = w := LoopExit.slowMetFast.inj h2.1
        have hfr := hl.first_revisited
        refine ⟨hloop, ?_, fun k hk e => ?_, m, by omega, hwm.symm, by omega, hfr.1, hfr.2⟩
        · rw [← hwm]
          exact startOfCycleContaining_ok hw hl (Nat.le_refl m) (by omega)
        · exact hfr.2 0 (by omega) k hk e.symm
    · rw [if_neg hf1] at h
      cases h

/-- C19: on a well-formed path whose walk never ends there are a position `m`, the least
one whose node is visited again, and a cycle length `c` such that for every witness on
the cycle (the node at a position `t` that is visited again) `nNodesInCycle` returns
`c`, `nextNodeIndex` leads from the start to the node `c` links further, the lockstep
loop started on this pair runs its body exactly `m` times and ends on the node at
position `m`, and this node is what `startOfCycleContaining` returns. -/
theorem C19_startOfCycleContaining_any_witness (p : Path) (hw : WellFormed p)
    (hne : ∀ k, p.pos k ≠ Path.end) (fuel : Nat) (hf : p.size ≤ fuel) :
    ∃ m c, (∃ j, m < j ∧ p.pos m = p.pos j) ∧
      (∀ k, k < m → ∀ j, k < j → p.pos k ≠ p.pos j) ∧
      1 ≤ c ∧ (∀ k, m ≤ k → p.pos (k + c) = p.pos k) ∧
      ∀ t, (∃ j, t < j ∧ p.pos t = p.pos j) →
        nNodesInCycle fuel p (p.pos t) = .ok c ∧
        nextNodeIndex p p.start c = .ok (p.pos c) ∧
        startOfCycleContaining.trace p fuel p.start (p.pos c) = .ok (p.pos m, m) ∧
        startOfCycleContaining fuel p (p.pos t) = .ok (p.pos m) := by
  obtain ⟨m, l, hl⟩ := Path.exists_lasso hw hw.2.1 hne
  have hsz := hl.le_size hw hw.2.1
  have hv : ∀ k, p.pos k < p.size := fun k => hl.lt_size hw hw.2.1 k
  have h1 := hl.one_le
  refine ⟨m, l, hl.first_revisited.1, hl.first_revisited.2, h1, fun k hk => hl.step hk,
    fun t ht => ?_⟩
  obtain ⟨j, htj, e⟩ := ht
  have hm : m ≤ t := ((hl.eq_iff htj).mp e).1
  exact ⟨nNodesInCycle_lasso hw (hl.on_cycle hw hm) (hv t) (by omega),
    nextNodeIndex_ok l p._start (fun i _ => hv i),
    startOfCycleContaining_trace_of_lasso hw hl (by omega),
    startOfCycleContaining_ok hw hl hm (by omega)⟩

/-- C20: for `b + c` below the sentinel value, `createPath b c` returns (no assertion
fails) a well-formed path with exactly `b + c` nodes; it is empty if and only if
`b + c = 0`, and otherwise starts at node `0`; every node but the last is linked to the
node of the next index; and the last node is linked to node `b` if `c ≥ 1` and to
nothing if `c = 0`. -/
theorem C20_createPath_links (b c : Nat) (hbc : b + c < Path.end) :
    ∃ p, createPath b c = .ok p ∧ WellFormed p ∧ p.size = b + c ∧
      (isEmpty p = true ↔ b + c = 0) ∧ (b + c ≠ 0 → p.start = 0) ∧
      (∀ i, i + 1 < b + c → p.next i = .ok (i + 1)) ∧
      (1 ≤ b + c → p.next (b + c - 1) = .ok (if 1 ≤ c then b else Path.end)) := by
  obtain ⟨p, hp, hs⟩ := createPath_shape hbc
  have hsz := hs.size_eq
  refine ⟨p, hp, hs.wellFormed hbc, hsz, ?_, fun h0 => ?_, fun i hi => ?_, fun h1 => ?_⟩
  · unfold isEmpty Path.start
    rw [hs.start_eq]
    by_cases h0 : b + c = 0
    · simp [h0]
    · rw [if_neg h0]
      have : (0 : Nat) ≠ Path.end := by decide
      simp [h0, this]
  · show p._start = 0
    rw [hs.start_eq, if_neg h0]
  · rw [Path.next_of_lt (by omega), hs.link i hi]
  · rw [Path.next_of_lt (by omega), hs.last (by omega)]
    by_cases hc : c = 0
    · rw [if_pos hc, if_neg (by omega)]
    · rw [if_neg hc, if_pos (by omega)]

/-! ## The later claims on concrete paths -/

theorem examplePath_off : ∀ k, 1 ≤ k → examplePath.iter 3 k ≠ 3 := by
  intro k hk e
  have h1 : examplePath.iter 3 1 = Path.end := by decide
  have h2 := Path.iter_absorb examplePath_wellFormed h1 hk
  rw [h2] at e
  exact absurd e (by decide)

theorem C11_witness :
    1 < examplePath.size ∧ examplePath.addNode.2.next 1 = examplePath.next 1 :=
  ⟨by decide, (C11_addNode_appends examplePath 0).2.2.2.2.1 1 (by decide)⟩

theorem C12_witness :
    examplePath.size ≤ Path.end ∧ 3 < examplePath.size ∧
    (0 < examplePath.size ∨ 0 = Path.end) ∧
    ∃ q, examplePath.setNext 3 0 = .ok q ∧ q.next 3 = .ok 0 ∧ q.size = examplePath.size ∧
      q.start = examplePath.start ∧
      ∀ x, x < examplePath.size → x ≠ 3 → q.next x = examplePath.next x :=
  ⟨by decide, by decide, Or.inl (by decide),
    C12_setNext_sets_link examplePath (by decide) 3 0 (by decide) (Or.inl (by decide))⟩

theorem C13_witness :
    2 < examplePath.size ∧
    ∃ q, examplePath.setNext Path.end 2 = .ok q ∧ q.start = 2 ∧
      q._nodes = examplePath._nodes ∧ q.size = examplePath.size :=
  ⟨by decide, (C13_setNext_start_marker examplePath 2).1 (by decide)⟩

theorem C14_witness :
    5 ≠ Path.end ∧
    (examplePath.setNext 5 0 = .assertFail ↔
      examplePath.size ≤ 5 ∨ (0 ≠ Path.end ∧ examplePath.size ≤ 0)) ∧
    (examplePath.setNextStore 5 0).2 = .assertFail ∧
    (examplePath.setNextStore 5 0).1 = examplePath :=
  ⟨by decide, (C14_assertion_failures examplePath 4 5 0).2.2.1 (by decide), by decide,
    (C14_assertion_failures examplePath 4 5 0).2.2.2.2.2 (by decide)⟩

theorem C15_witness :
    examplePath.LinksValid ∧
    WellFormed {} ∧
    examplePath.addNode.2.LinksValid ∧
    (∀ a t q, examplePath.setNext a t = .ok q → q.LinksValid ∧ q.size = examplePath.size) ∧
    (∀ q, examplePath.calls [.addNode, .setNext 4 0] = .ok q →
      q.LinksValid ∧ (q.size < Path.end → WellFormed q ∧ ¬ q.Valid Path.end)) ∧
    (∀ q, Path.calls {} [.addNode, .setNext 4 0] = .ok q →
      q.LinksValid ∧ (q.size < Path.end → WellFormed q ∧ ¬ q.Valid Path.end)) :=
  ⟨by decide, C15_wellFormed_invariant examplePath (by decide) [.addNode, .setNext 4 0]⟩

theorem C16_witness :
    WellFormed examplePath ∧ 3 < examplePath.size ∧
    (∀ k, 1 ≤ k → examplePath.iter 3 k ≠ 3) ∧
    (∀ c, nNodesInCycle 5 examplePath 3 ≠ .ok c) ∧
    ((∃ e, examplePath.iter 3 e = Path.end) →
      ∃ e, e ≤ examplePath.size ∧
        ∀ fuel1, e < fuel1 → nNodesInCycle fuel1 examplePath 3 = .assertFail) ∧
    ((∀ k, examplePath.iter 3 k ≠ Path.end) → nNodesInCycle 5 examplePath 3 = .outOfFuel) :=
  ⟨by decide, by decide, examplePath_off,
    C16_nNodesInCycle_off_cycle examplePath (by decide) 3 (by decide) examplePath_off 5⟩

theorem C17_witness :
    WellFormed examplePath ∧ examplePath.size ≤ 4 ∧ examplePath.start ≠ Path.end ∧
    ∃ r n, findCycle.trace examplePath 4 examplePath.start examplePath.start = .ok (r, n) ∧
      n ≤ examplePath.size ∧
      ∀ w, r = .fastMetSlow w →
        ∃ c v k, nNodesInCycle 4 examplePath w = .ok c ∧ c ≤ examplePath.size ∧
          nNodesInCycle c examplePath w = .ok c ∧
          nextNodeIndex examplePath examplePath.start c = .ok (examplePath.pos c) ∧
          startOfCycleContaining.trace examplePath 4 examplePath.start (examplePath.pos c) =
            .ok (v, k) ∧
          k ≤ examplePath.size :=
  ⟨by decide, by decide, by decide,
    (C17_linear_iterations examplePath (by decide) 4 (by decide)).2 (by decide)⟩

theorem C18_witness :
    WellFormed { _start := 0, _nodes := [⟨1⟩, ⟨1⟩] } ∧
    findCycle.trace { _start := 0, _nodes := [⟨1⟩, ⟨1⟩] } 1 0 0 = .ok (.slowMetFast 1, 1) ∧
    findCycle.loop { _start := 0, _nodes := [⟨1⟩, ⟨1⟩] } 2 1 0 0 = .ok 1 ∧
    startOfCycleContaining 2 { _start := 0, _nodes := [⟨1⟩, ⟨1⟩] } 1 = .ok 1 :=
  ⟨by decide, by decide,
    (C18_third_check_returns_cycle_start { _start := 0, _nodes := [⟨1⟩, ⟨1⟩] } (by decide)
      1 1 1 (by decide) 2 (by decide)).1,
    (C18_third_check_returns_cycle_start { _start := 0, _nodes := [⟨1⟩, ⟨1⟩] } (by decide)
      1 1 1 (by decide) 2 (by decide)).2.1⟩

theorem C19_witness :
    WellFormed examplePath ∧ (∀ k, examplePath.pos k ≠ Path.end) ∧ examplePath.size ≤ 4 ∧
    ∃ m c, (∃ j, m < j ∧ examplePath.pos m = examplePath.pos j) ∧
      (∀ k, k < m → ∀ j, k < j → examplePath.pos k ≠ examplePath.pos j) ∧
      1 ≤ c ∧ (∀ k, m ≤ k → examplePath.pos (k + c) = examplePath.pos k) ∧
      ∀ t, (∃ j, t < j ∧ examplePath.pos t = examplePath.pos j) →
        nNodesInCycle 4 examplePath (examplePath.pos t) = .ok c ∧
        nextNodeIndex examplePath examplePath.start c = .ok (examplePath.pos c) ∧
        startOfCycleContaining.trace examplePath 4 examplePath.start (examplePath.pos c) =
          .ok (examplePath.pos m, m) ∧
        startOfCycleContaining 4 examplePath (examplePath.pos t) = .ok (examplePath.pos m) :=
  ⟨by decide, examplePath_ne_end, by decide,
    C19_startOfCycleContaining_any_witness examplePath (by decide) examplePath_ne_end 4
      (by decide)⟩

theorem C20_witness :
    0 + 2 < Path.end ∧
    ∃ p, createPath 0 2 = .ok p ∧ WellFormed p ∧ p.size = 0 + 2 ∧
      (isEmpty p = true ↔ 0 + 2 = 0) ∧ (0 + 2 ≠ 0 → p.start = 0) ∧
      (∀ i, i + 1 < 0 + 2 → p.next i = .ok (i + 1)) ∧
      (1 ≤ 0 + 2 → p.next (0 + 2 - 1) = .ok (if 1 ≤ 2 then 0 else Path.end)) :=
  ⟨by decide, C20_createPath_links 0 2 (by decide)⟩

end FindCycleStart
